import Mathlib

/-!
Shallow embedding of `capytaine/matrices/block_matrices.py` (class `BlockMatrix`)
and verification of the specification's claims about it.

Modelling conventions:
* numpy numeric values are embedded as exact integers (`Int`); the claims under
  scrutiny are structural / shape / dtype / algebraic claims that do not depend
  on floating-point rounding, and integer-valued float arrays are exact in IEEE
  arithmetic for the sizes involved.
* numpy dtypes are embedded as the four kinds `bool < int < float < complex`
  (one representative per kind, matching the 64-bit dtypes the source uses);
  `promote` is numpy's result-type rule restricted to these kinds and
  `canCastSameKind` is `np.can_cast(_, _, casting="same_kind")`, the rule numpy
  applies to in-place `+=` and to slice assignment.
* a stored slot of a block matrix is either a dense numpy array (ndarray) or a
  nested `BlockMatrix`; the source stores the grid as `np.asarray(blocks)`,
  i.e. a rectangular 2-D object grid, embedded as `List (List Blk)`.
  (For a grid made of identically-shaped dense leaves numpy actually packs the
  blocks into one 4-D numeric array; for every operation modelled here except
  the `.T` axis reversal this is observationally identical to the object grid,
  and the transpose counterexamples below use ragged/nested grids, for which
  numpy keeps a genuine 2-D object grid, so the embedding is exact there.)
* Python exceptions are embedded as `Except PyErr`; an `assert` that fails is
  `PyErr.assertionError` (the specification's abstract ShapeError /
  TypeMismatchError names), a numpy shape failure is `PyErr.valueError`, a
  failed cast or unsupported binary fallback is `PyErr.typeError`.
-/

set_option maxHeartbeats 1000000 in
theorem capytaineEmbeddingMarker : True := trivial

namespace Capytaine

/-- Embedded numpy dtype, one representative per kind, ordered by kind. -/
inductive Dtype where
  | bool | int | float | complex
deriving DecidableEq, Repr

/-- Numeric kind rank: bool < int < float < complex (numpy kind ordering). -/
def Dtype.kind : Dtype → Nat
  | .bool => 0
  | .int => 1
  | .float => 2
  | .complex => 3

/-- Numpy result-type promotion restricted to the four 64-bit kinds. -/
def promote (a b : Dtype) : Dtype :=
  if a.kind ≤ b.kind then b else a

/-- Whether numpy allows casting values of dtype `a` into a buffer of dtype `b`
under the "same_kind" rule used by in-place operations and slice assignment
(true exactly when the kind does not decrease, for these four dtypes). -/
def canCastSameKind (a b : Dtype) : Bool :=
  decide (a.kind ≤ b.kind)

/-- Embedded Python exception classes raised by the code paths modelled here. -/
inductive PyErr where
  | indexError
  | assertionError
  | valueError
  | typeError
  | attributeError
deriving DecidableEq, Repr

/-- A stored slot of a block matrix: either a dense numpy array (`arr`, with
its dtype, its numpy shape attribute and its 2-D buffer; the shape list has
length `ndim`) or a nested `BlockMatrix` (`blm`, with the fields the source
constructor stores: the grid `_stored_blocks`, the two `_stored_block_shapes`
lists, `_stored_nb_blocks`, the derived total `shape` and the `dtype`). -/
inductive Blk where
  | arr (dtype : Dtype) (sh : List Nat) (rows : List (List Int)) : Blk
  | blm (grid : List (List Blk)) (rowShapes colShapes : List Nat)
        (nbR nbC : Nat) (shape0 shape1 : Nat) (dtype : Dtype) : Blk
deriving Repr

instance : Inhabited Blk := ⟨.arr .float [] []⟩

/-- The numpy `ndim` attribute: length of the shape for an ndarray, and the
class attribute `ndim = 2` for a `BlockMatrix`. -/
def Blk.ndim : Blk → Nat
  | .arr _ sh _ => sh.length
  | .blm _ _ _ _ _ _ _ _ => 2

/-- The first component of the `shape` attribute (`block.shape[0]`). -/
def Blk.shape0 : Blk → Nat
  | .arr _ sh _ => sh.getD 0 0
  | .blm _ _ _ _ _ s0 _ _ => s0

/-- The second component of the `shape` attribute (`block.shape[1]`). -/
def Blk.shape1 : Blk → Nat
  | .arr _ sh _ => sh.getD 1 0
  | .blm _ _ _ _ _ _ s1 _ => s1

/-- The `dtype` attribute. -/
def Blk.dtypeOf : Blk → Dtype
  | .arr d _ _ => d
  | .blm _ _ _ _ _ _ _ d => d

/-- The `block_shapes` property of a `BlockMatrix` (junk on a bare ndarray). -/
def Blk.blockShapes : Blk → List Nat × List Nat
  | .arr _ _ _ => ([], [])
  | .blm _ rsh csh _ _ _ _ _ => (rsh, csh)

/-- The `nb_blocks` property of a `BlockMatrix` (junk on a bare ndarray). -/
def Blk.nbBlocks : Blk → Nat × Nat
  | .arr _ _ _ => (0, 0)
  | .blm _ _ _ nbR nbC _ _ _ => (nbR, nbC)

/-- The `shape` attribute of a `BlockMatrix` as stored by the constructor. -/
def Blk.shapeOf : Blk → Nat × Nat
  | .arr _ sh _ => (sh.getD 0 0, sh.getD 1 0)
  | .blm _ _ _ _ _ s0 s1 _ => (s0, s1)

/-- Transpose of a rectangular object grid, as `np.moveaxis(grid, 1, 0)` (and
`grid.T` for a 2-D object array) act on the grids the source builds: column
`j` of the input becomes row `j` of the output. -/
def gridT (g : List (List Blk)) : List (List Blk) :=
  (List.range (g.headD []).length).map (fun j => g.map (fun row => row.getD j default))

/-- Sum of `(List.range n).map f`, the reference notion of an indexed sum used
to state dense-algebra facts. -/
def rsum (n : Nat) (f : Nat → Int) : Int :=
  ((List.range n).map f).sum

mutual

/-- Validity of a stored slot: a dense leaf is a well-formed 2-D numpy array
(shape attribute `[h, w]` consistent with its buffer), and a nested tree is a
valid block matrix.  This is the data-model invariant of the specification
(§3, invariants 1–4) together with consistency of the cached constructor
fields, which holds for every tree the constructor accepts. -/
def validBlk : Blk → Bool
  | .arr _ sh rows =>
      sh = [rows.length, (rows.headD []).length] &&
      rows.all (fun r => r.length = (rows.headD []).length)
  | .blm grid rsh csh nbR nbC s0 s1 d =>
      validGrid grid rsh csh d &&
      !grid.isEmpty && !csh.isEmpty &&
      nbR = grid.length && nbC = csh.length &&
      s0 = rsh.sum && s1 = csh.sum

/-- Validity of a grid of stored slots against the block-row height list, the
block-column width list and the tree dtype: the grid has one row per entry of
`rsh`, and each row is valid against its height. -/
def validGrid : List (List Blk) → List Nat → List Nat → Dtype → Bool
  | [], rsh, _, _ => rsh.isEmpty
  | _, [], _, _ => false
  | row :: rest, h :: hs, csh, d =>
      validRow row h csh d && validGrid rest hs csh d

/-- Validity of one block-row against its height and the width list: one slot
per width, each slot valid, of the stated height, width and dtype. -/
def validRow : List Blk → Nat → List Nat → Dtype → Bool
  | [], _, csh, _ => csh.isEmpty
  | _, _, [], _ => false
  | b :: bs, h, w :: ws, d =>
      validBlk b && b.shape0 = h && b.shape1 = w && b.dtypeOf = d &&
      validRow bs h ws d

end

mutual

/-- Reference semantics of a stored slot as a total entry function: the value
the slot contributes at local coordinate `(i, j)`.  Used to state elementwise
claims; out-of-range coordinates give `0`. -/
def entryBlk : Blk → Nat → Nat → Int
  | .arr _ _ rows, i, j => (rows.getD i []).getD j 0
  | .blm grid rsh csh _ _ _ _ _, i, j => entryGrid grid rsh csh i j

/-- Entry function of a grid: locate the block-row containing `i` through the
height list and defer to that row. -/
def entryGrid : List (List Blk) → List Nat → List Nat → Nat → Nat → Int
  | [], _, _, _, _ => 0
  | _, [], _, _, _ => 0
  | row :: rest, h :: hs, csh, i, j =>
      if i < h then entryRow row csh i j else entryGrid rest hs csh (i - h) j

/-- Entry function of one block-row: locate the block-column containing `j`
through the width list and defer to that slot. -/
def entryRow : List Blk → List Nat → Nat → Nat → Int
  | [], _, _, _ => 0
  | _, [], _, _ => 0
  | b :: bs, w :: ws, i, j =>
      if j < w then entryBlk b i j else entryRow bs ws i (j - w)

end

/-- BlockMatrix._check_dimensions_of_blocks: every block of a block-row has
the height of the row's first block, and every block of a block-column (the
grid transposed, as `np.moveaxis(blocks, 1, 0)`) has the width of the
column's first block.  The source compares `line[1:]` against `line[0]`;
comparing every element against the head is the same predicate. -/
def checkDimensionsOfBlocks (grid : List (List Blk)) : Bool :=
  grid.all (fun line => line.all (fun b => b.shape0 = (line.headD default).shape0)) &&
  (gridT grid).all (fun col => col.all (fun b => b.shape1 = (col.headD default).shape1))

/-- BlockMatrix._check_dtype: every stored block has the tree's dtype. -/
def checkDtype (grid : List (List Blk)) (d : Dtype) : Bool :=
  grid.all (fun line => line.all (fun b => b.dtypeOf = d))

/-- BlockMatrix.__init__: store the grid, assert that the slot at (0, 0)
exists (IndexError on an empty grid) and is 2-dimensional (AssertionError
otherwise), take `nb_blocks` from the grid dimensions, derive
`_stored_block_shapes` from the first column's heights and the first row's
widths unless precomputed shapes are supplied, derive `shape` as their sums
and `dtype` from the slot at (0, 0); when `check` is set, assert the block
dimension consistency check and then the dtype uniformity check.  The grid is
a rectangular object grid as `np.asarray` produces for the inputs the source
builds. -/
def init (blocks : List (List Blk)) (stored : Option (List Nat × List Nat))
    (check : Bool) : Except PyErr Blk :=
  match blocks.head? with
  | none => .error .indexError
  | some row0 =>
    match row0.head? with
    | none => .error .indexError
    | some b00 =>
      if b00.ndim ≠ 2 then .error .assertionError
      else
        let nbR := blocks.length
        let nbC := row0.length
        let shapes :=
          match stored with
          | some s => s
          | none => (blocks.map (fun (r : List Blk) => (r.headD default).shape0),
                     row0.map Blk.shape1)
        let m := Blk.blm blocks shapes.1 shapes.2 nbR nbC shapes.1.sum shapes.2.sum b00.dtypeOf
        if check then
          if checkDimensionsOfBlocks blocks then
            if checkDtype blocks b00.dtypeOf then .ok m
            else .error .assertionError
          else .error .assertionError
        else .ok m

/-- A dense 2-D numpy array: its dtype, its shape attribute (nr, nc) and its
buffer as a list of rows (consistent with the shape for every array numpy
produces). -/
structure NpMat where
  dtype : Dtype
  nr : Nat
  nc : Nat
  rows : List (List Int)
deriving Repr

/-- Numpy slice assignment `target[r:r+h, c:c+w] = B` on a raw rectangular
buffer, written pointwise; the caller checks that the region fits and that
`B` has the region's shape before calling. -/
def setRegion (M : List (List Int)) (r c : Nat) (B : List (List Int)) (w : Nat) :
    List (List Int) :=
  (List.range M.length).map (fun i =>
    if r ≤ i ∧ i < r + B.length then
      (List.range (M.getD i []).length).map (fun j =>
        if c ≤ j ∧ j < c + w then (B.getD (i - r) []).getD (j - c) 0
        else (M.getD i []).getD j 0)
    else M.getD i [])

/-- Write one dense leaf into the full matrix at anchor (r, c):
`full_matrix[r:r+sh[0], c:c+sh[1]] = rows`.  Numpy clips the target slice at
the array bounds and then rejects the assignment when the clipped region's
shape differs from the value's shape (ValueError), and rejects a value whose
dtype does not cast into the target's under the same_kind rule (TypeError). -/
def writeArr (d : Dtype) (sh : List Nat) (rows : List (List Int)) (M : NpMat)
    (r c : Nat) : Except PyErr NpMat :=
  if r + sh.getD 0 0 ≤ M.nr ∧ c + sh.getD 1 0 ≤ M.nc then
    if rows.length = sh.getD 0 0 ∧ (rows.headD []).length = sh.getD 1 0 then
      if canCastSameKind d M.dtype then
        .ok ⟨M.dtype, M.nr, M.nc, setRegion M.rows r c rows (sh.getD 1 0)⟩
      else .error .typeError
    else .error .valueError
  else .error .valueError

/-- The prefix-sum offset list `accumulate([start] + l[:-1])`: one entry per
entry of `l`, starting at `start` (used by `_stored_block_positions`). -/
def accPos : List Nat → Nat → List Nat
  | [], _ => []
  | h :: t, s => s :: accPos t (s + h)

/-- `itertools.product` of two offset lists, first component outermost (the
row-major anchor enumeration of `_stored_block_positions`). -/
def posProduct : List Nat → List Nat → List (Nat × Nat)
  | [], _ => []
  | x :: xs, ys => ys.map (fun y => (x, y)) ++ posProduct xs ys

mutual

/-- BlockMatrix._put_in_full_matrix: zip the row-major flat iterator of the
stored slots with the anchor list of `_stored_block_positions` (the
`product` of the two prefix-sum offset lists of `_stored_block_shapes`) and
write each slot at its anchor — a dense slot directly, a nested slot by
recursion.  The flat zip is modelled by traversing the grid row-major while
consuming the precomputed anchor list as a stream, which pairs the k-th
slot with the k-th anchor exactly as `zip` does, including when the grid's
dimensions and the stored shape lists disagree.  (The base-class position
enumerator yields exactly one anchor per slot, so the copy-later-anchors
step of the source is vacuous here.) -/
def putBlk : Blk → NpMat → Nat → Nat → Except PyErr NpMat
  | .arr d sh rows, M, r, c => writeArr d sh rows M r c
  | .blm grid rsh csh _ _ _ _ _, M, r, c =>
      putGrid grid (posProduct (accPos rsh r) (accPos csh c)) M

/-- Traversal of the grid rows for `_put_in_full_matrix`, consuming the
anchor stream across row boundaries as the flat zip does. -/
def putGrid : List (List Blk) → List (Nat × Nat) → NpMat → Except PyErr NpMat
  | [], _, M => .ok M
  | row :: rest, ps, M => do
      let s ← putRow row ps M
      putGrid rest s.2 s.1

/-- Traversal of one grid row: write each slot at the next anchor of the
stream; when the anchors are exhausted the zip stops.  Returns the updated
matrix and the remaining anchors. -/
def putRow : List Blk → List (Nat × Nat) → NpMat →
    Except PyErr (NpMat × List (Nat × Nat))
  | [], ps, M => .ok (M, ps)
  | _ :: _, [], M => .ok (M, [])
  | b :: bs, p :: ps, M => do
      let M1 ← putBlk b M p.1 p.2
      putRow bs ps M1

end

/-- BlockMatrix.full_matrix: allocate a dense array of the stored total shape
and dtype (`np.empty` modelled as zero-initialised; the claims only concern
coordinates the writes cover) and write the tree into it at offset (0, 0).
Only a BlockMatrix has this method. -/
def fullMatrixE : Blk → Except PyErr NpMat
  | .arr _ _ _ => .error .attributeError
  | .blm grid rsh csh nbR nbC s0 s1 d =>
      putBlk (.blm grid rsh csh nbR nbC s0 s1 d)
        ⟨d, s0, s1, List.replicate s0 (List.replicate s1 0)⟩ 0 0

/-- The unary slot operations the claims use: `lambda x: x.T` (transpose) and
`operator.invert` (boolean not). -/
inductive UOp where
  | uT | uInvert
deriving DecidableEq, Repr

/-- Transpose of a rectangular dense buffer (numpy `.T` on a 2-D array). -/
def rowsTr (rows : List (List Int)) : List (List Int) :=
  (List.range (rows.headD []).length).map (fun j => rows.map (fun r => r.getD j 0))

/-- numpy `~x` on one element: logical not on the bool dtype, bitwise not
(two's complement) on integer dtypes. -/
def invVal (d : Dtype) (x : Int) : Int :=
  if d = .bool then (if x = 0 then 1 else 0) else (-x - 1)

/-- A unary slot operation on a dense leaf: `.T` reverses the numpy shape and
transposes the buffer, keeping the dtype; `~` maps `invVal` elementwise. -/
def leafUOp : UOp → Dtype → List Nat → List (List Int) → Blk
  | .uT, d, sh, rows => .arr d sh.reverse (rowsTr rows)
  | .uInvert, d, sh, rows => .arr d sh (rows.map (fun r => r.map (invVal d)))

mutual

/-- The slot operation `op(block)` of `_apply_unary_op`: elementwise on a
dense leaf, via the corresponding BlockMatrix operation on a nested slot:
for `.uT` the `.T` property (which is `_apply_unary_op(lambda x: x.T)`
followed by overwriting `_stored_blocks` with its grid transpose, leaving
the cached metadata untransposed), for `.uInvert` the `__invert__` method
(which is `_apply_unary_op(operator.invert)`).  `_apply_unary_op` maps the
slot operation over the stored grid and rebuilds through the constructor
with the parent's `_stored_block_shapes` and `check=False`; its body is
inlined in both nested cases. -/
def slotUOp : UOp → Blk → Except PyErr Blk
  | op, .arr d sh rows => .ok (leafUOp op d sh rows)
  | .uT, .blm grid rsh csh _ _ _ _ _ => do
      let mapped ← mapGridU .uT grid
      let t ← init mapped (some (rsh, csh)) false
      match t with
      | .blm g2 rsh2 csh2 nbR2 nbC2 t0 t1 d2 =>
          .ok (.blm (gridT g2) rsh2 csh2 nbR2 nbC2 t0 t1 d2)
      | other => .ok other
  | .uInvert, .blm grid rsh csh _ _ _ _ _ => do
      let mapped ← mapGridU .uInvert grid
      init mapped (some (rsh, csh)) false

/-- Map a unary slot operation over the rows of a grid. -/
def mapGridU : UOp → List (List Blk) → Except PyErr (List (List Blk))
  | _, [] => .ok []
  | op, row :: rest => do
      let r ← mapRowU op row
      let rs ← mapGridU op rest
      .ok (r :: rs)

/-- Map a unary slot operation over one row. -/
def mapRowU : UOp → List Blk → Except PyErr (List Blk)
  | _, [] => .ok []
  | op, b :: bs => do
      let b2 ← slotUOp op b
      let bs2 ← mapRowU op bs
      .ok (b2 :: bs2)

end

/-- BlockMatrix._apply_unary_op as a standalone function (the nested cases of
`slotUOp` inline this body): map the slot operation over the stored grid and
rebuild through the constructor with the parent's `_stored_block_shapes` and
`check=False`. -/
def applyUnaryOp (op : UOp) (grid : List (List Blk)) (rsh csh : List Nat) :
    Except PyErr Blk := do
  let mapped ← mapGridU op grid
  init mapped (some (rsh, csh)) false

/-- BlockMatrix.T on the stored fields of a tree: `_apply_unary_op` with
`lambda x: x.T` (which rebuilds with the parent's `_stored_block_shapes`,
hence also the parent's derived `shape` and the parent's `nb_blocks`), then
overwrite only `_stored_blocks` with its grid transpose.  The cached
metadata of the returned tree is the untransposed parent metadata, exactly
as in the source. -/
def transposeBM (grid : List (List Blk)) (rsh csh : List Nat) :
    Except PyErr Blk := do
  let t ← applyUnaryOp .uT grid rsh csh
  match t with
  | .blm g2 rsh2 csh2 nbR2 nbC2 t0 t1 d2 =>
      .ok (.blm (gridT g2) rsh2 csh2 nbR2 nbC2 t0 t1 d2)
  | other => .ok other

/-- The `.T` property applied to a value (ndarray transpose on a dense leaf,
the BlockMatrix `.T` property on a tree). -/
def tE (b : Blk) : Except PyErr Blk := slotUOp .uT b

theorem slotUOp_uT_eq_transposeBM (grid : List (List Blk)) (rsh csh : List Nat)
    (nbR nbC s0 s1 : Nat) (d : Dtype) :
    slotUOp .uT (.blm grid rsh csh nbR nbC s0 s1 d) = transposeBM grid rsh csh := by
  simp [slotUOp, transposeBM, applyUnaryOp]

theorem slotUOp_uInvert_eq_applyUnaryOp (grid : List (List Blk)) (rsh csh : List Nat)
    (nbR nbC s0 s1 : Nat) (d : Dtype) :
    slotUOp .uInvert (.blm grid rsh csh nbR nbC s0 s1 d) =
      applyUnaryOp .uInvert grid rsh csh := by
  simp [slotUOp, applyUnaryOp]

/-- The binary slot operations the claims use: elementwise add, subtract and
equality. -/
inductive BOp where
  | add | sub | eq
deriving DecidableEq, Repr

/-- Elementwise value semantics of a binary op (equality yields the boolean
values 0 / 1). -/
def bopVal : BOp → Int → Int → Int
  | .add, x, y => x + y
  | .sub, x, y => x - y
  | .eq, x, y => if x = y then 1 else 0

/-- Result dtype of a binary op on dense operands. -/
def bopDtype : BOp → Dtype → Dtype → Dtype
  | .add, a, b => promote a b
  | .sub, a, b => promote a b
  | .eq, _, _ => .bool

/-- numpy elementwise binary operation on two dense leaves: equal shapes are
required (numpy rejects the non-broadcastable shapes as an error; the
matched-structure hypotheses of the claims keep the shapes equal, where the
behavior is unambiguous), the result has the op's dtype and the elementwise
values. -/
def npBinop (op : BOp) (d1 : Dtype) (sh1 : List Nat) (r1 : List (List Int))
    (d2 : Dtype) (sh2 : List Nat) (r2 : List (List Int)) : Except PyErr Blk :=
  if sh1 = sh2 then
    .ok (.arr (bopDtype op d1 d2) sh1
      (List.zipWith (fun a b => List.zipWith (bopVal op) a b) r1 r2))
  else .error .valueError

/-- Result of `_apply_binary_op`: a new tree, or the non-fatal
`NotImplemented` signal returned when the operand is not a block matrix of
the same class or the grids differ in `nb_blocks`. -/
inductive BRes where
  | val (b : Blk)
  | notImplemented
deriving Repr

mutual

/-- The slot operation `op(block, other_block)` of `_apply_binary_op`:
elementwise on two dense leaves; on two nested slots the operator dispatches
back into `_apply_binary_op` of the sub-trees (body inlined here, as for the
unary case).  When the nested dispatch yields `NotImplemented`, or the two
slots are of different kinds, Python's fallback behavior (reflected-operator
retry, ending in a TypeError for arithmetic and in an identity comparison
for `eq`, or numpy object broadcasting) is outside the modelled domain and
is collapsed to a TypeError; the matched-structure hypotheses of every
theorem below keep these branches unreachable. -/
def slotBOp : BOp → Blk → Blk → Except PyErr Blk
  | op, .arr d1 sh1 r1, .arr d2 sh2 r2 => npBinop op d1 sh1 r1 d2 sh2 r2
  | op, .blm g1 rsh1 csh1 nbR1 nbC1 _ _ _, .blm g2 _ _ nbR2 nbC2 _ _ _ =>
      if nbR1 = nbR2 ∧ nbC1 = nbC2 then do
        let mapped ← zipGridB op g1 g2
        init mapped (some (rsh1, csh1)) false
      else .error .typeError
  | _, _, _ => .error .typeError

/-- Zip the slot operation over the rows of two grids (`zip` truncates at the
shorter operand, as in the source). -/
def zipGridB : BOp → List (List Blk) → List (List Blk) → Except PyErr (List (List Blk))
  | _, [], _ => .ok []
  | _, _ :: _, [] => .ok []
  | op, r1 :: rest1, r2 :: rest2 => do
      let r ← zipRowB op r1 r2
      let rs ← zipGridB op rest1 rest2
      .ok (r :: rs)

/-- Zip the slot operation over one pair of rows. -/
def zipRowB : BOp → List Blk → List Blk → Except PyErr (List Blk)
  | _, [], _ => .ok []
  | _, _ :: _, [] => .ok []
  | op, b1 :: bs1, b2 :: bs2 => do
      let b ← slotBOp op b1 b2
      let bs ← zipRowB op bs1 bs2
      .ok (b :: bs)

end

/-- BlockMatrix._apply_binary_op: when the operand is a block matrix of the
same class with the same `nb_blocks`, apply the operator slot-wise by
position and rebuild through the constructor with the left operand's
`_stored_block_shapes` and `check=False`; otherwise return the non-fatal
`NotImplemented` signal. -/
def applyBinaryOp (op : BOp) : Blk → Blk → Except PyErr BRes
  | .blm g1 rsh1 csh1 nbR1 nbC1 _ _ _, .blm g2 _ _ nbR2 nbC2 _ _ _ =>
      if nbR1 = nbR2 ∧ nbC1 = nbC2 then do
        let mapped ← zipGridB op g1 g2
        let r ← init mapped (some (rsh1, csh1)) false
        .ok (.val r)
      else .ok .notImplemented
  | _, _ => .ok .notImplemented

/-- BlockMatrix.__eq__: `_apply_binary_op(operator.eq, other)` — a deep
elementwise comparison returning a boolean-leaved tree. -/
def eqBM (b1 b2 : Blk) : Except PyErr BRes := applyBinaryOp .eq b1 b2

/-- BlockMatrix.__invert__ (boolean not, `~`): `_apply_unary_op(invert)` on a
tree; numpy elementwise invert on a dense value. -/
def invertE (b : Blk) : Except PyErr Blk := slotUOp .uInvert b

/-- BlockMatrix.__ne__: `~(self == other)`.  When `__eq__` signals
`NotImplemented` (grids of different `nb_blocks`), Python's `==` protocol
falls back to an identity comparison producing the plain bool `False`, and
`~False` is the integer `-1` — a value outside the tree domain modelled
here, collapsed to a TypeError; the same-`nb_blocks` hypothesis of the claim
keeps that branch unreachable. -/
def neBM (b1 b2 : Blk) : Except PyErr BRes := do
  let r ← eqBM b1 b2
  match r with
  | .val c => do
      let c2 ← invertE c
      .ok (.val c2)
  | .notImplemented => .error .typeError

/-- A dense 1-D numpy array: its dtype and its values. -/
structure NpVec where
  dtype : Dtype
  data : List Int
deriving Repr

/-- numpy `result[p:p+h] += contrib` on a 1-D array: the target slice is
clipped at the array bounds, the added array must have the slice's length
(the broadcasting numpy would do for other lengths does not occur at the
lengths valid trees produce), and the added dtype must cast into the
result's dtype under the same_kind in-place rule (TypeError otherwise). -/
def addInto (res : NpVec) (p h : Nat) (contrib : NpVec) : Except PyErr NpVec :=
  if contrib.data.length = ((res.data.drop p).take h).length then
    if canCastSameKind contrib.dtype res.dtype then
      .ok ⟨res.dtype, (List.range res.data.length).map (fun i =>
        if p ≤ i ∧ i < p + h then res.data.getD i 0 + contrib.data.getD (i - p) 0
        else res.data.getD i 0)⟩
    else .error .typeError
  else .error .valueError

/-- Dot product of two equally long lists (numpy 1-D dot). -/
def dotL (a b : List Int) : Int := (List.zipWith (· * ·) a b).sum

/-- numpy 2-D @ 1-D product on a dense leaf: the leaf's column count must
equal the vector's length (error otherwise); the result promotes the two
dtypes and holds one dot product per row. -/
def arrMatvec (d : Dtype) (sh : List Nat) (rows : List (List Int)) (v : NpVec) :
    Except PyErr NpVec :=
  if sh.getD 1 0 = v.data.length then
    .ok ⟨promote d v.dtype, rows.map (fun r => dotL r v.data)⟩
  else .error .valueError

mutual

/-- BlockMatrix.matvec: allocate a zero result of length `shape[0]` with the
input vector's dtype (`np.zeros(self.shape[0], dtype=other.dtype)`); for
each stored slot, with block-row offset the running sum of the stored
heights and block-column offset the running sum of the stored widths, add
`block @ other[cp:cp+w]` into `result[lp:lp+lh]`.  On a dense value the same
function is the numpy 2-D @ 1-D product, which is what `block @ vector`
dispatches to for a dense slot; a nested slot recurses through the nested
tree's matvec (`__matmul__` with a 1-D operand). -/
def matvecE : Blk → NpVec → Except PyErr NpVec
  | .arr d sh rows, v => arrMatvec d sh rows v
  | .blm grid rsh csh _ _ s0 _ _, v =>
      mvGrid grid rsh csh ⟨v.dtype, List.replicate s0 0⟩ 0 v

/-- matvec outer loop: one block-row at a time, advancing the row offset by
the stored height (the source's zip of the blocks with the prefix-sum
position list). -/
def mvGrid : List (List Blk) → List Nat → List Nat → NpVec → Nat → NpVec →
    Except PyErr NpVec
  | [], _, _, res, _, _ => .ok res
  | _, [], _, res, _, _ => .ok res
  | row :: rest, h :: hs, csh, res, lp, v => do
      let res1 ← mvRow row csh res lp h 0 v
      mvGrid rest hs csh res1 (lp + h) v

/-- matvec inner loop: one slot at a time within a block-row, advancing the
column offset by the stored width; each slot contributes
`block @ other[cp:cp+w]` added into `result[lp:lp+lh]`. -/
def mvRow : List Blk → List Nat → NpVec → Nat → Nat → Nat → NpVec →
    Except PyErr NpVec
  | [], _, res, _, _, _, _ => .ok res
  | _, [], res, _, _, _, _ => .ok res
  | b :: bs, w :: ws, res, lp, lh, cp, v => do
      let contrib ← matvecE b ⟨v.dtype, (v.data.drop cp).take w⟩
      let res1 ← addInto res lp lh contrib
      mvRow bs ws res1 lp lh (cp + w) v

end

/-- numpy 2-D @ 2-D product on raw rectangular buffers:
`C[i][j] = sum over k of A[i][k] * B[k][j]` (dimension compatibility is
checked by the caller). -/
def npMatmulRows (A B : List (List Int)) : List (List Int) :=
  A.map (fun ar => (List.range ((B.headD []).length)).map
    (fun j => rsum B.length (fun k => ar.getD k 0 * (B.getD k []).getD j 0)))

/-- Value of one `own_block @ other_block` term inside `matmat`'s summation:
a dense ndarray, a BlockMatrix, or Python `None` (the fall-through return of
a nested `matmat` on incompatible partitions). -/
inductive SlotVal where
  | sArr (d : Dtype) (rows : List (List Int))
  | sBM (b : Blk)
  | sNone
deriving Repr

/-- Accumulator state of Python's builtin `sum`, which starts from the plain
integer `0`. -/
inductive PAcc where
  | int0
  | acc (d : Dtype) (rows : List (List Int))
deriving Repr

/-- One step of Python's `sum` over the product terms.  `0 + ndarray` keeps
the array; `ndarray + ndarray` is the elementwise sum (equal shapes; the
broadcasting numpy would apply to other shapes does not occur for the
partitions `matmat` accepts); adding a BlockMatrix raises TypeError, because
`int + BlockMatrix` and `ndarray + BlockMatrix` both end with every
`__add__`/`__radd__` candidate returning NotImplemented (`_apply_binary_op`
rejects non-BlockMatrix operands); adding `None` raises TypeError as well. -/
def pyAddStep : PAcc → SlotVal → Except PyErr PAcc
  | .int0, .sArr d r => .ok (.acc d r)
  | .acc d r, .sArr d2 r2 =>
      if r.length = r2.length ∧ (r.headD []).length = (r2.headD []).length then
        .ok (.acc (promote d d2) (List.zipWith (fun a b => List.zipWith (· + ·) a b) r r2))
      else .error .valueError
  | _, .sBM _ => .error .typeError
  | _, .sNone => .error .typeError

/-- Python `sum` over the list of product terms.  An empty sum stays the
plain integer `0`, which the subsequent BlockMatrix constructor cannot
accept (`0` has no `ndim` attribute): collapsed to AttributeError;
unreachable for the non-empty grids valid trees have. -/
def pySum : List SlotVal → PAcc → Except PyErr (Dtype × List (List Int))
  | [], .int0 => .error .attributeError
  | [], .acc d r => .ok (d, r)
  | s :: rest, st => do
      let st2 ← pyAddStep st s
      pySum rest st2

/-- Result of `BlockMatrix.matmat`: a block tree (block × block case), a
dense array (block × dense case), or Python `None` — the implicit return
value of the fall-through when neither case matches. -/
inductive MatRes where
  | bm (b : Blk)
  | dense (M : NpMat)
  | noneRes
deriving Repr

/-- Modelled from the spec: `capytaine.matrices.builders.cut_matrix` is
imported by `matmat` but its module is not among the provided sources.
Sections 4.6(b) and 6 of the specification describe it as the
dense-to-block cutter: it re-partitions a dense array into a block tree
whose row-group heights and column-group widths are the given lists, each
slot being the corresponding rectangular sub-array, built with validation
skipped.  Successive row slabs of the stated heights. -/
def cutRowGroups : List (List Int) → List Nat → List (List (List Int))
  | _, [] => []
  | rows, h :: hs => rows.take h :: cutRowGroups (rows.drop h) hs

/-- Modelled from the spec (continuation of `cut_matrix`): successive column
slabs of the stated widths within one row slab. -/
def cutColGroups : List (List Int) → List Nat → List (List (List Int))
  | _, [] => []
  | slab, w :: ws =>
      slab.map (fun r => r.take w) ::
      cutColGroups (slab.map (fun r => r.drop w)) ws

/-- Modelled from the spec: `cut_matrix(full_matrix, heights, widths,
check=False)` builds the grid of dense sub-arrays and constructs a
BlockMatrix from it with validation skipped. -/
def cutMatrixE (d : Dtype) (rows : List (List Int)) (hs ws : List Nat) :
    Except PyErr Blk :=
  let grid := (cutRowGroups rows hs).map (fun slab =>
    (cutColGroups slab ws).map (fun b =>
      Blk.arr d [b.length, (b.headD []).length] b))
  init grid none false

mutual

/-- The block × block body of `BlockMatrix.matmat` (case (a)): given this
tree's grid and the other tree's grid already transposed
(`np.moveaxis(other.all_blocks, 1, 0)`), produce the grid of summed
products, one row per own block-row. -/
def matmatBB : List (List Blk) → List (List Blk) → Except PyErr (List (List Blk))
  | [], _ => .ok []
  | row :: rest, ocols => do
      let line ← mmLine ocols row
      let rests ← matmatBB rest ocols
      .ok (line :: rests)

/-- One result block-row of `matmat`: for each column of the other tree, sum
the products of the own row's slots with that column's slots; the summed
ndarray is stored as a dense slot whose numpy shape is its buffer's shape. -/
def mmLine : List (List Blk) → List Blk → Except PyErr (List Blk)
  | [], _ => .ok []
  | ocol :: ocols, row => do
      let terms ← mmEntries row ocol
      let s ← pySum terms .int0
      let line ← mmLine ocols row
      .ok (Blk.arr s.1 [s.2.length, (s.2.headD []).length] s.2 :: line)

/-- The product terms `own_block @ other_block` of one (row, column) pair
(`zip` truncates at the shorter list, as in the source). -/
def mmEntries : List Blk → List Blk → Except PyErr (List SlotVal)
  | [], _ => .ok []
  | _ :: _, [] => .ok []
  | b1 :: bs1, b2 :: bs2 => do
      let s ← blkMatmul b1 b2
      let rest ← mmEntries bs1 bs2
      .ok (s :: rest)

/-- One product term `own_block @ other_block`.
dense @ dense is the numpy 2-D product (inner dimensions must agree).
BlockMatrix @ BlockMatrix dispatches through `__matmul__` into the nested
`matmat` (body inlined here): the block × block case when the partitions
are compatible, `None` otherwise.
BlockMatrix @ dense dispatches into `matmat`'s dense case (body inlined):
when `shape[1]` matches the dense operand's row count, the operand is cut
into a single-column-group block tree along this tree's column partition,
the block × block case is applied to it (its re-dispatch condition checked
as the source's recursive call does), and the result is flattened; when the
row count does not match, `None`.
dense @ BlockMatrix makes numpy coerce the right operand, which fails:
collapsed to TypeError. -/
def blkMatmul : Blk → Blk → Except PyErr SlotVal
  | .arr d1 sh1 r1, .arr d2 sh2 r2 =>
      if sh1.getD 1 0 = sh2.getD 0 0 then
        .ok (.sArr (promote d1 d2) (npMatmulRows r1 r2))
      else .error .valueError
  | .blm g1 _ csh1 _ _ _ _ _, .blm g2 rsh2 _ _ _ _ _ _ =>
      if csh1 = rsh2 then do
        let g ← matmatBB g1 (gridT g2)
        let c ← init g none false
        .ok (.sBM c)
      else .ok .sNone
  | .blm g1 _ csh1 _ _ _ s11 _, .arr d2 sh2 r2 =>
      if s11 = sh2.getD 0 0 then do
        let cut ← cutMatrixE d2 r2 csh1 [sh2.getD 1 0]
        match cut with
        | .blm cg crsh _ _ _ _ _ _ =>
            if csh1 = crsh then do
              let g ← matmatBB g1 (gridT cg)
              let c ← init g none false
              let M ← fullMatrixE c
              .ok (.sArr M.dtype M.rows)
            else .error .attributeError
        | _ => .error .attributeError
      else .ok .sNone
  | .arr _ _ _, .blm _ _ _ _ _ _ _ _ => .error .typeError

end

/-- BlockMatrix.matmat: block × block when the operand is a BlockMatrix with
a compatible partition (this tree's column-group widths equal the other's
row-group heights), with the result rebuilt by `BlockMatrix(new_matrix,
check=False)`; block × dense when the operand is an ndarray whose row count
equals `shape[1]`, by cutting the operand and re-dispatching (the
re-dispatch lands back in the block × block case; were its condition to
fail, the `None` fall-through would be flattened, an AttributeError); in
every other case the method falls off its end and returns `None`. -/
def matmatE : Blk → Blk → Except PyErr MatRes
  | .blm g1 _ csh1 _ _ _ _ _, .blm g2 rsh2 _ _ _ _ _ _ =>
      if csh1 = rsh2 then do
        let g ← matmatBB g1 (gridT g2)
        let c ← init g none false
        .ok (.bm c)
      else .ok .noneRes
  | .blm g1 _ csh1 _ _ _ s11 _, .arr d2 sh2 r2 =>
      if s11 = sh2.getD 0 0 then do
        let cut ← cutMatrixE d2 r2 csh1 [sh2.getD 1 0]
        match cut with
        | .blm cg crsh _ _ _ _ _ _ =>
            if csh1 = crsh then do
              let g ← matmatBB g1 (gridT cg)
              let c ← init g none false
              let M ← fullMatrixE c
              .ok (.dense M)
            else .error .attributeError
        | _ => .error .attributeError
      else .ok .noneRes
  | _, _ => .ok .noneRes

/-- Operand of the generic composition operator `@` (`__matmul__`): a
BlockMatrix or 2-D ndarray (`obj`), a 1-D ndarray (`vec`), an ndarray of any
other rank (`obj` with a shape list of that length), or any non-array
object (`other`). -/
inductive PyOperand where
  | obj (b : Blk)
  | vec (v : NpVec)
  | oth
deriving Repr

/-- Result of `__matmul__`: a `matmat` result, a `matvec` result, or the
non-fatal NotImplemented signal. -/
inductive MMRes where
  | res (r : MatRes)
  | vecRes (v : NpVec)
  | notImplemented
deriving Repr

/-- BlockMatrix.__matmul__: NotImplemented unless the operand is a
BlockMatrix or an ndarray; a 2-D operand routes to `matmat`; a 1-D operand
routes to `matvec`; any other rank is NotImplemented. -/
def matmulOp (b : Blk) : PyOperand → Except PyErr MMRes
  | .oth => .ok .notImplemented
  | .vec v => do
      let r ← matvecE b v
      .ok (.vecRes r)
  | .obj o =>
      if o.ndim = 2 then do
        let r ← matmatE b o
        .ok (.res r)
      else .ok .notImplemented

/-- Python truthiness of a list: non-empty. -/
def pyTruthy (l : List Bool) : Bool := !l.isEmpty

/-- The input-validation step of `BlockMatrix.fft_of_list` (the body up to
and including the three `assert` statements).  Each assert is written
`assert [condition for matrix in block_matrices[1:]]` in the source: the
asserted object is the list comprehension itself, so the assert tests the
list's truthiness (non-emptiness), not the conditions; the per-element
comparisons are built here exactly as the comprehensions build them and
then tested for truthiness.  An empty argument list fails the initial
`block_matrices[0]` access.  The numerical transform that follows
(`np.fft.fft` over complex floats, distributed back into zero-filled
copies) is floating-point and outside the exact embedding; the claim under
scrutiny concerns only this check. -/
def fftOfListCheck (ms : List Blk) (check : Bool) : Except PyErr Unit :=
  match ms with
  | [] => .error .indexError
  | m :: rest =>
      if check then
        let checkNb := rest.map (fun m2 => decide (m.nbBlocks = m2.nbBlocks))
        let checkShape := rest.map (fun m2 => decide (m.shapeOf = m2.shapeOf))
        let checkClass := rest.map (fun _ => true)
        if pyTruthy checkNb then
          if pyTruthy checkShape then
            if pyTruthy checkClass then .ok ()
            else .error .assertionError
          else .error .assertionError
        else .error .assertionError
      else .ok ()

/-- The conventional dense matrix-vector product (the `flatten(B) @ v` side
of the specification's matvec property). -/
def denseMatvec (M : NpMat) (v : NpVec) : NpVec :=
  ⟨promote M.dtype v.dtype, M.rows.map (fun r => dotL r v.data)⟩

/-- The conventional dense matrix-matrix product (the
`flatten(B1) @ flatten(B2)` side of the specification's matmat property). -/
def denseMatmul (A B : NpMat) : NpMat :=
  ⟨promote A.dtype B.dtype, A.nr, B.nc, npMatmulRows A.rows B.rows⟩

mutual

/-- Structural correspondence of two trees: same grid layout with equal
stored partitions and equal leaf shapes at every position.  This is the
hypothesis under which per-slot elementwise operations are well-posed. -/
def structMatch : Blk → Blk → Bool
  | .arr _ sh1 _, .arr _ sh2 _ => sh1 = sh2
  | .blm g1 rsh1 csh1 nbR1 nbC1 _ _ _, .blm g2 rsh2 csh2 nbR2 nbC2 _ _ _ =>
      rsh1 = rsh2 && csh1 = csh2 && nbR1 = nbR2 && nbC1 = nbC2 &&
      structMatchGrid g1 g2
  | _, _ => false

/-- Pairwise structural correspondence of grid rows. -/
def structMatchGrid : List (List Blk) → List (List Blk) → Bool
  | [], [] => true
  | r1 :: rest1, r2 :: rest2 => structMatchRow r1 r2 && structMatchGrid rest1 rest2
  | _, _ => false

/-- Pairwise structural correspondence of row slots. -/
def structMatchRow : List Blk → List Blk → Bool
  | [], [] => true
  | b1 :: bs1, b2 :: bs2 => structMatch b1 b2 && structMatchRow bs1 bs2
  | _, _ => false

end

/-- Some block-row's slots disagree in height (the failure condition of the
construction-validation claim, stated as the specification words it). -/
def rowsDisagree (g : List (List Blk)) : Prop :=
  ∃ row ∈ g, ∃ b ∈ row, b.shape0 ≠ (row.headD default).shape0

/-- Some block-column's slots disagree in width. -/
def colsDisagree (g : List (List Blk)) : Prop :=
  ∃ col ∈ gridT g, ∃ b ∈ col, b.shape1 ≠ (col.headD default).shape1

instance (g : List (List Blk)) : Decidable (rowsDisagree g) := by
  unfold rowsDisagree
  infer_instance

instance (g : List (List Blk)) : Decidable (colsDisagree g) := by
  unfold colsDisagree
  infer_instance

/-- Whether every stored slot of a tree is a dense leaf (a depth-1 tree). -/
def leafOnly : Blk → Bool
  | .arr _ _ _ => true
  | .blm grid _ _ _ _ _ _ _ =>
      grid.all (fun row => row.all (fun b =>
        match b with
        | .arr _ _ _ => true
        | .blm _ _ _ _ _ _ _ _ => false))

/-- Entry of a raw rectangular buffer (used to state pointwise facts). -/
def getE (rows : List (List Int)) (i j : Nat) : Int := (rows.getD i []).getD j 0

/-- Rectangularity of a raw buffer: every row has width `nc`. -/
def rectM (rows : List (List Int)) (nc : Nat) : Prop := ∀ r ∈ rows, r.length = nc

/-! Concrete sample data used by counterexample and witness theorems. -/

/-- Sample 2 × 2 dense leaf. -/
def leafA : Blk := .arr .float [2, 2] [[1, 2], [3, 4]]

/-- Sample 2 × 2 dense leaf. -/
def leafB : Blk := .arr .float [2, 2] [[5, 6], [7, 8]]

/-- Sample 2 × 2 dense leaf. -/
def leafC : Blk := .arr .float [2, 2] [[9, 10], [11, 12]]

/-- Sample 2 × 2 dense leaf. -/
def leafD : Blk := .arr .float [2, 2] [[13, 14], [15, 16]]

/-- Sample 2 × 3 dense leaf. -/
def leafW : Blk := .arr .float [2, 3] [[1, 2, 3], [4, 5, 6]]

/-- Valid 2 × 2 grid of 2 × 2 leaves (the specification's concrete
scenario). -/
def sampleSquare : Blk := .blm [[leafA, leafB], [leafC, leafD]] [2, 2] [2, 2] 2 2 4 4 .float

/-- Valid 1 × 1 tree holding one 2 × 3 leaf: total shape (2, 3). -/
def sampleWide : Blk := .blm [[leafW]] [2] [3] 1 1 2 3 .float

/-- Valid 1 × 2 tree with row partition [2] and column partition [2, 3]:
a tree whose row partition differs from its column partition. -/
def sampleRagged : Blk := .blm [[leafA, leafW]] [2] [2, 3] 1 2 2 5 .float

/-- Valid 1 × 1 complex tree. -/
def sampleCplx : Blk := .blm [[.arr .complex [1, 1] [[5]]]] [1] [1] 1 1 1 1 .complex

/-- Valid 1 × 1 complex tree (distinct data). -/
def sampleCplx2 : Blk := .blm [[.arr .complex [1, 1] [[7]]]] [1] [1] 1 1 1 1 .complex

/-- Valid 1 × 1 tree of total shape (2, 2). -/
def sampleOne : Blk := .blm [[leafA]] [2] [2] 1 1 2 2 .float

/-- Valid 1 × 1 tree of total shape (3, 3), partition-incompatible with
`sampleOne`. -/
def sampleThree : Blk := .blm [[.arr .float [3, 3] [[1, 0, 0], [0, 1, 0], [0, 0, 1]]]] [3] [3] 1 1 3 3 .float

/-- Valid nested tree: a 1 × 1 grid holding `sampleSquare`. -/
def sampleNested : Blk := .blm [[sampleSquare]] [4] [4] 1 1 4 4 .float

/-- Valid 2 × 2 grid differing from `sampleSquare` in one block. -/
def sampleSquare2 : Blk := .blm [[leafA, leafB], [leafC, leafA]] [2, 2] [2, 2] 2 2 4 4 .float

/-- Valid nested tree: a 1 × 1 grid holding `sampleSquare2`. -/
def sampleNested2 : Blk := .blm [[sampleSquare2]] [4] [4] 1 1 4 4 .float

/-- A grid whose single block-row holds a 2 × 2 and a 3 × 2 leaf: the
block-row's slots disagree in height. -/
def sampleBadGrid : List (List Blk) := [[leafA, .arr .float [3, 2] [[1, 2], [3, 4], [5, 6]]]]

/-- Entry function of one block-column (a vertical list of slots with a
common width, as `np.moveaxis(other.all_blocks, 1, 0)` produces for
`matmat`): locate the slot containing row coordinate `i` through the height
list and defer to it. -/
def entryCol : List Blk → List Nat → Nat → Nat → Int
  | [], _, _, _ => 0
  | _, [], _, _ => 0
  | b :: bs, h :: hs, i, j =>
      if i < h then entryBlk b i j else entryCol bs hs (i - h) j

/-- Entry function of a list of block-columns: locate the column containing
column coordinate `j` through the width list and defer to it. -/
def entryCols : List (List Blk) → List Nat → List Nat → Nat → Nat → Int
  | [], _, _, _, _ => 0
  | _, _, [], _, _ => 0
  | col :: cols, ws, cw :: cws, i, j =>
      if j < cw then entryCol col ws i j else entryCols cols ws cws i (j - cw)

/-- Validity of one block-column against the height list, its width and the
dtype (the transposed counterpart of `validRow`). -/
def validCol : List Blk → List Nat → Nat → Dtype → Bool
  | [], ws, _, _ => ws.isEmpty
  | _, [], _, _ => false
  | b :: bs, h :: hs, w, d =>
      validBlk b && b.shape0 = h && b.shape1 = w && b.dtypeOf = d &&
      validCol bs hs w d

/-- Validity of a list of block-columns against the height list, the width
list and the dtype. -/
def validCols : List (List Blk) → List Nat → List Nat → Dtype → Bool
  | [], _, cws, _ => cws.isEmpty
  | _, _, [], _ => false
  | col :: cols, ws, cw :: cws, d =>
      validCol col ws cw d && validCols cols ws cws d

/-- Whether every slot of a list is a dense leaf. -/
def leafRow (l : List Blk) : Bool :=
  l.all (fun b =>
    match b with
    | .arr _ _ _ => true
    | .blm _ _ _ _ _ _ _ _ => false)

/-- Characterization predicate for the recursive elementwise equality at one
slot, proved for every slot by induction: on valid, structure-matched
operands it returns a valid boolean-leaved value of the same shape and grid
whose entries flag elementwise equality. -/
def EqSpecP (b1 : Blk) : Prop := ∀ b2 : Blk, validBlk b1 = true → validBlk b2 = true →
  structMatch b1 b2 = true →
  ∃ c, slotBOp .eq b1 b2 = .ok c ∧ validBlk c = true ∧ c.dtypeOf = .bool ∧
    c.shape0 = b1.shape0 ∧ c.shape1 = b1.shape1 ∧ c.nbBlocks = b1.nbBlocks ∧
    ∀ i j, i < b1.shape0 → j < b1.shape1 →
      entryBlk c i j = (if entryBlk b1 i j = entryBlk b2 i j then 1 else 0)

/-- Characterization predicate for boolean not (`~`) at one slot, proved for
every slot by induction: on a valid value it maps `invVal` elementwise,
preserving the structure and the dtype. -/
def InvSpecP (b : Blk) : Prop := validBlk b = true →
  ∃ c, slotUOp .uInvert b = .ok c ∧ validBlk c = true ∧ c.dtypeOf = b.dtypeOf ∧
    c.shape0 = b.shape0 ∧ c.shape1 = b.shape1 ∧ c.nbBlocks = b.nbBlocks ∧
    ∀ i j, i < b.shape0 → j < b.shape1 →
      entryBlk c i j = invVal b.dtypeOf (entryBlk b i j)

/-- Characterization predicate for `block @ vector` at one slot, proved for
every slot by induction: on a valid value whose dtype kind casts into the
vector's, the product succeeds with the vector's dtype and the usual
row-times-vector sums of the slot's entry function. -/
def MvSpecP (b : Blk) : Prop := ∀ v : NpVec, validBlk b = true →
  Dtype.kind b.dtypeOf ≤ Dtype.kind v.dtype → v.data.length = b.shape1 →
  ∃ data, matvecE b v = .ok ⟨v.dtype, data⟩ ∧ data.length = b.shape0 ∧
    ∀ i, i < b.shape0 →
      data.getD i 0 = rsum b.shape1 (fun j => entryBlk b i j * v.data.getD j 0)

/-- Characterization predicate for writing one slot into the full matrix,
proved for every slot by induction: a valid slot whose frame fits writes
exactly its entry function onto its frame and leaves the rest unchanged. -/
def PutSpecP (b : Blk) : Prop := ∀ (M : NpMat) (r c : Nat), validBlk b = true →
  M.rows.length = M.nr → rectM M.rows M.nc →
  r + b.shape0 ≤ M.nr → c + b.shape1 ≤ M.nc →
  canCastSameKind b.dtypeOf M.dtype = true →
  ∃ rows2, putBlk b M r c = .ok ⟨M.dtype, M.nr, M.nc, rows2⟩ ∧
    rows2.length = M.nr ∧ rectM rows2 M.nc ∧
    ∀ i j, i < M.nr → j < M.nc →
      getE rows2 i j =
        if r ≤ i ∧ i < r + b.shape0 ∧ c ≤ j ∧ j < c + b.shape1
        then entryBlk b (i - r) (j - c) else getE M.rows i j

/-! ### Infrastructure lemmas -/

theorem exists_ok_of_ne_error {α : Type} {e : Except PyErr α}
    (h : ∀ err, e ≠ .error err) : ∃ a, e = .ok a := by
  cases e with
  | error err => exact absurd rfl (h err)
  | ok a => exact ⟨a, rfl⟩

theorem exc_bind_ok {α β : Type} {x : Except PyErr α} {f : α → Except PyErr β} {b : β}
    (h : (x >>= f) = .ok b) : ∃ a, x = .ok a ∧ f a = .ok b := by
  cases x with
  | error e => simp [Bind.bind, Except.bind] at h
  | ok a => exact ⟨a, rfl, by simpa [Bind.bind, Except.bind] using h⟩

theorem getD_range_map {α : Type} {n : Nat} {f : Nat → α} {i : Nat} {d : α} (h : i < n) :
    ((List.range n).map f).getD i d = f i := by
  rw [List.getD_eq_getElem _ _ (by simpa using h)]
  simp

theorem rsum_congr {n : Nat} {f g : Nat → Int} (h : ∀ j < n, f j = g j) :
    rsum n f = rsum n g := by
  unfold rsum
  congr 1
  exact List.map_congr_left (fun a ha => h a (List.mem_range.mp ha))

theorem rsum_add (a b : Nat) (f : Nat → Int) :
    rsum (a + b) f = rsum a f + rsum b (fun j => f (a + j)) := by
  unfold rsum
  rw [List.range_add, List.map_append, List.sum_append, List.map_map]
  rfl

theorem rsum_zero_fun (f : Nat → Int) : rsum 0 f = 0 := rfl

theorem rsum_one (f : Nat → Int) : rsum 1 f = f 0 := by
  simp [rsum, List.range_succ]

theorem dotL_eq_rsum : ∀ (a b : List Int), a.length = b.length →
    dotL a b = rsum a.length (fun j => a.getD j 0 * b.getD j 0) := by
  intro a
  induction a with
  | nil => intro b _; simp [dotL, rsum]
  | cons x xs ih =>
    intro b hb
    cases b with
    | nil => simp at hb
    | cons y ys =>
      have hlen : xs.length = ys.length := by simpa using hb
      have h1 : (x :: xs).length = 1 + xs.length := by simp [Nat.add_comm]
      rw [h1, rsum_add 1 xs.length, rsum_one]
      have : dotL (x :: xs) (y :: ys) = x * y + dotL xs ys := by
        simp [dotL]
      rw [this, ih ys hlen]
      unfold rsum
      congr 1
      apply congrArg List.sum
      apply List.map_congr_left
      intro j hj
      have h2 : 1 + j = j + 1 := Nat.add_comm 1 j
      simp [h2]

theorem setRegion_length (M : List (List Int)) (r c : Nat) (B : List (List Int)) (w : Nat) :
    (setRegion M r c B w).length = M.length := by
  simp [setRegion]

theorem setRegion_rowlen {M : List (List Int)} {r c : Nat} {B : List (List Int)} {w : Nat}
    {i : Nat} (h : i < M.length) :
    ((setRegion M r c B w).getD i []).length = (M.getD i []).length := by
  unfold setRegion
  rw [getD_range_map h]
  split <;> simp

theorem getE_setRegion {M : List (List Int)} {r c : Nat} {B : List (List Int)} {w : Nat}
    {i j : Nat} (hi : i < M.length) (hj : j < (M.getD i []).length) :
    getE (setRegion M r c B w) i j =
      if r ≤ i ∧ i < r + B.length ∧ c ≤ j ∧ j < c + w then getE B (i - r) (j - c)
      else getE M i j := by
  unfold getE setRegion
  rw [getD_range_map hi]
  by_cases h1 : r ≤ i ∧ i < r + B.length
  · rw [if_pos h1, getD_range_map hj]
    by_cases h2 : c ≤ j ∧ j < c + w
    · rw [if_pos h2, if_pos ⟨h1.1, h1.2, h2.1, h2.2⟩]
    · rw [if_neg h2, if_neg (by tauto)]
  · rw [if_neg h1, if_neg (by tauto)]

theorem eqOfGetD {a b : List Int} (hl : a.length = b.length)
    (h : ∀ i < a.length, a.getD i 0 = b.getD i 0) : a = b := by
  apply List.ext_getElem hl
  intro i h1 h2
  have := h i h1
  rwa [List.getD_eq_getElem _ _ h1, List.getD_eq_getElem _ _ h2] at this

/-! ### Claim C10: the constructor's first-slot guard -/

/-- C10: construction always fails, in checked and in validation-skip mode
alike, when the supplied grid has no slot at position (0, 0) (empty grid or
empty first row) or when that slot is not 2-dimensional; the error is raised
before any tree is produced. -/
theorem C10_init_first_slot_guard (blocks : List (List Blk))
    (stored : Option (List Nat × List Nat)) (check : Bool)
    (h : blocks.head?.bind List.head? = none ∨
         ∃ b, blocks.head?.bind List.head? = some b ∧ b.ndim ≠ 2) :
    ∃ e, init blocks stored check = .error e := by
  match blocks with
  | [] => exact ⟨.indexError, rfl⟩
  | [] :: rest => exact ⟨.indexError, rfl⟩
  | (b00 :: brest) :: rest =>
    rcases h with h0 | ⟨b, hb, hnd⟩
    · simp at h0
    · simp only [List.head?_cons, Option.bind_some] at hb
      cases hb
      exact ⟨.assertionError, by simp [init, hnd]⟩

/-- C10 witness: the guard fires on the empty grid. -/
theorem C10_witness : ∃ e, init ([] : List (List Blk)) none false = .error e :=
  C10_init_first_slot_guard [] none false (Or.inl rfl)

/-! ### Claim C1: transpose does not swap the cached metadata -/

/-- C1 evaluation: on the valid tree `sampleWide` of block shapes
([2], [3]) and shape (2, 3), the `.T` property returns a tree whose stored
grid holds the transposed 3 × 2 leaf but whose `block_shapes` are still
([2], [3]) — not the swapped ([3], [2]) the claim states — and whose `shape`
is still (2, 3). -/
theorem C1_transpose_metadata_not_swapped :
    validBlk sampleWide = true ∧ sampleWide.blockShapes = ([2], [3]) ∧
    (∃ t, tE sampleWide = .ok t ∧ t.blockShapes = ([2], [3]) ∧ t.shapeOf = (2, 3)) ∧
    (([2], [3]) : List Nat × List Nat) ≠ (([3], [2]) : List Nat × List Nat) := by
  refine ⟨by decide, by decide, ⟨_, rfl, by decide, by decide⟩, by decide⟩

/-! ### Claim C3: the batched-transform check is vacuous -/

/-- C3 evaluation: `sampleWide` and `sampleRagged` disagree in both
`nb_blocks` and `shape`, yet `fft_of_list`'s check accepts the pair, because
each `assert` tests the truthiness of the non-empty comprehension list
rather than the comparisons it contains; the same asserts spuriously reject
a single-tree input (the comprehension list is empty there), and skipping
the check accepts it. -/
theorem C3_fft_check_vacuous :
    sampleWide.shapeOf ≠ sampleRagged.shapeOf ∧
    sampleWide.nbBlocks ≠ sampleRagged.nbBlocks ∧
    fftOfListCheck [sampleWide, sampleRagged] true = .ok () ∧
    fftOfListCheck [sampleWide] true = .error .assertionError ∧
    fftOfListCheck [sampleWide] false = .ok () := by
  exact ⟨by decide, by decide, rfl, rfl, rfl⟩

/-! ### Claim C4: flatten does not commute with transpose -/

/-- C4 evaluation: `sampleRagged` is a valid tree whose row partition [2]
differs from its column partition [2, 3]; its own flattening succeeds, but
flattening its transpose fails with a shape error, because the transposed
tree kept the untransposed metadata (shape (2, 5) and block shapes
([2], [2, 3])) while its stored grid holds transposed blocks — so the second
block is written at a stale anchor where it does not fit.  In particular
`flatten(transpose(B))` is not the dense transpose of `flatten(B)`. -/
theorem C4_flatten_transpose_mismatch :
    validBlk sampleRagged = true ∧
    sampleRagged.blockShapes = ([2], [2, 3]) ∧
    (∃ F, fullMatrixE sampleRagged = .ok F) ∧
    (tE sampleRagged).bind fullMatrixE = .error .valueError := by
  refine ⟨by decide, by decide, ⟨_, rfl⟩, rfl⟩

/-! ### Claim C2: matvec result dtype -/

/-- C2 counterexample: on the valid complex tree `sampleCplx` and a real
vector of conforming length, the numeric promotion of the dtypes is complex,
but `matvec` raises a TypeError instead of returning any result (the result
buffer is allocated with the vector's dtype, and the complex contribution
cannot be cast into it), so the result's element type is not the promotion. -/
theorem C2_matvec_complex_real_raises :
    validBlk sampleCplx = true ∧ sampleCplx.dtypeOf = .complex ∧
    promote .complex .float = .complex ∧
    matvecE sampleCplx ⟨.float, [2]⟩ = .error .typeError := by
  exact ⟨by decide, rfl, rfl, rfl⟩

theorem addInto_dtype {res : NpVec} {p h : Nat} {contrib : NpVec} {r : NpVec}
    (hok : addInto res p h contrib = .ok r) : r.dtype = res.dtype := by
  unfold addInto at hok
  by_cases h1 : contrib.data.length = ((res.data.drop p).take h).length
  · rw [if_pos h1] at hok
    by_cases h2 : canCastSameKind contrib.dtype res.dtype = true
    · rw [if_pos h2] at hok
      cases hok
      rfl
    · rw [if_neg h2] at hok
      cases hok
  · rw [if_neg h1] at hok
    cases hok

theorem mvRow_dtype : ∀ (bs : List Blk) (ws : List Nat) (res : NpVec)
    (lp lh cp : Nat) (v : NpVec) (r : NpVec),
    mvRow bs ws res lp lh cp v = .ok r → r.dtype = res.dtype := by
  intro bs
  induction bs with
  | nil => intro ws res lp lh cp v r h; simp [mvRow] at h; rw [← h]
  | cons b bs ih =>
    intro ws res lp lh cp v r h
    cases ws with
    | nil => simp [mvRow] at h; rw [← h]
    | cons w ws =>
      simp only [mvRow] at h
      obtain ⟨contrib, hc, h2⟩ := exc_bind_ok h
      obtain ⟨res1, hr1, h3⟩ := exc_bind_ok h2
      have := ih ws res1 lp lh (cp + w) v r h3
      rw [this, addInto_dtype hr1]

theorem mvGrid_dtype : ∀ (g : List (List Blk)) (rsh csh : List Nat) (res : NpVec)
    (lp : Nat) (v : NpVec) (r : NpVec),
    mvGrid g rsh csh res lp v = .ok r → r.dtype = res.dtype := by
  intro g
  induction g with
  | nil => intro rsh csh res lp v r h; simp [mvGrid] at h; rw [← h]
  | cons row rest ih =>
    intro rsh csh res lp v r h
    cases rsh with
    | nil => simp [mvGrid] at h; rw [← h]
    | cons hh hs =>
      simp only [mvGrid] at h
      obtain ⟨res1, hr1, h2⟩ := exc_bind_ok h
      have := ih hs csh res1 (lp + hh) v r h2
      rw [this, mvRow_dtype _ _ _ _ _ _ _ _ hr1]

/-- C2 amended: `matvec` allocates its result with the input vector's dtype,
so whenever it returns a result at all, the result's element type is the
vector's element type — not the numeric promotion of the matrix's and the
vector's.  (When the matrix's kind exceeds the vector's, as in the
counterexample, `matvec` fails instead of promoting.) -/
theorem C2_matvec_dtype_is_vector_dtype (grid : List (List Blk))
    (rsh csh : List Nat) (nbR nbC s0 s1 : Nat) (d : Dtype) (v w : NpVec)
    (h : matvecE (.blm grid rsh csh nbR nbC s0 s1 d) v = .ok w) :
    w.dtype = v.dtype := by
  have h2 : mvGrid grid rsh csh ⟨v.dtype, List.replicate s0 0⟩ 0 v = .ok w := by
    simpa [matvecE] using h
  exact mvGrid_dtype grid rsh csh ⟨v.dtype, List.replicate s0 0⟩ 0 v w h2

/-- C2 witness: a float tree times a float vector succeeds and the theorem
applies, giving the vector's dtype. -/
theorem C2_witness :
    ∃ w, matvecE sampleOne ⟨.float, [1, 0]⟩ = .ok w ∧ w.dtype = .float := by
  refine ⟨_, rfl, ?_⟩
  exact C2_matvec_dtype_is_vector_dtype [[leafA]] [2] [2] 1 1 2 2 .float ⟨.float, [1, 0]⟩ _ rfl

/-! ### Claim C6: failure signalling of binary operations -/

/-- C6 counterexample: on the valid partition-incompatible pair
(`sampleOne`, `sampleThree`), the product operator returns Python `None`
(the fall-through of `matmat`), not the reflected-attempt-permitting
NotImplemented signal the claim states for every incompatible binary
operation. -/
theorem C6_matmul_incompatible_returns_none :
    validBlk sampleOne = true ∧ validBlk sampleThree = true ∧
    sampleOne.blockShapes.2 ≠ sampleThree.blockShapes.1 ∧
    matmulOp sampleOne (.obj sampleThree) = .ok (.res .noneRes) ∧
    MMRes.res .noneRes ≠ MMRes.notImplemented := by
  refine ⟨by decide, by decide, by decide, rfl, ?_⟩
  intro h
  cases h

/-- C6 amended: the elementwise binary dispatcher returns the non-fatal
NotImplemented signal (and never raises) whenever the grids' `nb_blocks`
differ, and the product operator returns NotImplemented for an unsupported
operand kind or rank; but a product of two block matrices with incompatible
partitions returns `None` — `matmat` falls off its end — which is a normal
return value, not a signal permitting a reflected attempt. -/
theorem C6_amended_signalling :
    (∀ (op : BOp) (b1 b2 : Blk), b1.nbBlocks ≠ b2.nbBlocks →
        applyBinaryOp op b1 b2 = .ok .notImplemented) ∧
    (∀ b : Blk, matmulOp b .oth = .ok .notImplemented) ∧
    (∀ b o : Blk, o.ndim ≠ 2 → matmulOp b (.obj o) = .ok .notImplemented) ∧
    (∀ g1 rsh1 csh1 a1 a2 a3 a4 d1 g2 rsh2 csh2 b1 b2 b3 b4 d2,
        csh1 ≠ rsh2 →
        matmatE (.blm g1 rsh1 csh1 a1 a2 a3 a4 d1) (.blm g2 rsh2 csh2 b1 b2 b3 b4 d2)
          = .ok .noneRes) := by
  refine ⟨?_, ?_, ?_, ?_⟩
  · intro op b1 b2 hne
    cases b1 with
    | arr d sh rows => cases b2 <;> simp [applyBinaryOp]
    | blm g1 rsh1 csh1 nbR1 nbC1 s01 s11 d1 =>
      cases b2 with
      | arr d2 sh2 rows2 => simp [applyBinaryOp]
      | blm g2 rsh2 csh2 nbR2 nbC2 s02 s12 d2 =>
        have : ¬(nbR1 = nbR2 ∧ nbC1 = nbC2) := by
          intro ⟨ha, hb⟩
          exact hne (by simp [Blk.nbBlocks, ha, hb])
        simp [applyBinaryOp, this]
  · intro b; rfl
  · intro b o hnd; simp [matmulOp, hnd]
  · intro g1 rsh1 csh1 a1 a2 a3 a4 d1 g2 rsh2 csh2 b1 b2 b3 b4 d2 hne
    simp [matmatE, hne]

/-- C6 witness: the amended theorem applied at concrete inputs: an
elementwise add of trees with different `nb_blocks`, a product with a
non-array operand, a product with a 3-D array operand, and the
partition-incompatible block product. -/
theorem C6_witness :
    applyBinaryOp .add sampleOne sampleSquare = .ok .notImplemented ∧
    matmulOp sampleOne .oth = .ok .notImplemented ∧
    matmulOp sampleOne (.obj (Blk.arr .float [2, 2, 2] [])) = .ok .notImplemented ∧
    matmatE sampleOne sampleThree = .ok .noneRes :=
  ⟨C6_amended_signalling.1 .add sampleOne sampleSquare (by decide),
   C6_amended_signalling.2.1 sampleOne,
   C6_amended_signalling.2.2.1 sampleOne (Blk.arr .float [2, 2, 2] []) (by decide),
   C6_amended_signalling.2.2.2 [[leafA]] [2] [2] 1 1 2 2 .float
     [[Blk.arr .float [3, 3] [[1, 0, 0], [0, 1, 0], [0, 0, 1]]]] [3] [3] 1 1 3 3 .float
     (by decide)⟩

/-! ### Claim C5: construction validation -/

theorem checkDims_false_of_disagree {g : List (List Blk)}
    (h : rowsDisagree g ∨ colsDisagree g) :
    checkDimensionsOfBlocks g = false := by
  cases hc : checkDimensionsOfBlocks g
  · rfl
  · exfalso
    unfold checkDimensionsOfBlocks at hc
    rw [Bool.and_eq_true] at hc
    obtain ⟨h1, h2⟩ := hc
    rw [List.all_eq_true] at h1 h2
    rcases h with ⟨row, hrow, b, hb, hne⟩ | ⟨col, hcol, b, hb, hne⟩
    · have h3 := h1 row hrow
      rw [List.all_eq_true] at h3
      exact hne (by simpa using h3 b hb)
    · have h3 := h2 col hcol
      rw [List.all_eq_true] at h3
      exact hne (by simpa using h3 b hb)

/-- C5: whenever construction reaches the validation step (the grid's first
slot exists and is 2-dimensional) and some block-row's slots disagree in
height or some block-column's slots disagree in width, construction with
validation enabled fails with the dimension-consistency assertion (the
specification's ShapeError); and on the same grid, construction with the
validation-skip flag raises no error and returns a tree. -/
theorem C5_construction_validation (g : List (List Blk))
    (stored : Option (List Nat × List Nat)) (b00 : Blk)
    (hb : g.head?.bind List.head? = some b00) (hnd : b00.ndim = 2) :
    ((rowsDisagree g ∨ colsDisagree g) → init g stored true = .error .assertionError) ∧
    (∃ m, init g stored false = .ok m) := by
  match g, hb with
  | (b :: br) :: rest, hb =>
    simp only [List.head?_cons, Option.bind_some] at hb
    cases hb
    constructor
    · intro hdis
      have hcd := checkDims_false_of_disagree hdis
      simp [init, hnd, hcd]
    · apply exists_ok_of_ne_error
      intro err
      simp [init, hnd]

/-- C5 witness: on the grid whose single block-row holds a 2 × 2 leaf and a
3 × 2 leaf, checked construction fails with the assertion and unchecked
construction succeeds. -/
theorem C5_witness :
    init sampleBadGrid none true = .error .assertionError ∧
    ∃ m, init sampleBadGrid none false = .ok m := by
  have h := C5_construction_validation sampleBadGrid none leafA rfl rfl
  exact ⟨h.1 (Or.inl (by decide)), h.2⟩

/-! ### Validity and structure lemmas -/

theorem exc_ok_bind {α β : Type} (a : α) (f : α → Except PyErr β) :
    ((Except.ok a : Except PyErr α) >>= f) = f a := rfl

theorem validBlk_blm_iff {g : List (List Blk)} {rsh csh : List Nat}
    {nbR nbC s0 s1 : Nat} {d : Dtype} :
    validBlk (.blm g rsh csh nbR nbC s0 s1 d) = true ↔
      validGrid g rsh csh d = true ∧ g ≠ [] ∧ csh ≠ [] ∧
      nbR = g.length ∧ nbC = csh.length ∧ s0 = rsh.sum ∧ s1 = csh.sum := by
  simp [validBlk, Bool.and_eq_true, decide_eq_true_eq, List.isEmpty_iff, and_assoc]

theorem validBlk_arr_iff {d : Dtype} {sh : List Nat} {rows : List (List Int)} :
    validBlk (.arr d sh rows) = true ↔
      sh = [rows.length, (rows.headD []).length] ∧
      ∀ r ∈ rows, r.length = (rows.headD []).length := by
  simp [validBlk, Bool.and_eq_true, decide_eq_true_eq, List.all_eq_true]

theorem validGrid_cons_iff {row : List Blk} {rest : List (List Blk)}
    {h : Nat} {hs : List Nat} {csh : List Nat} {d : Dtype} :
    validGrid (row :: rest) (h :: hs) csh d = true ↔
      validRow row h csh d = true ∧ validGrid rest hs csh d = true := by
  simp [validGrid, Bool.and_eq_true]

theorem validRow_cons_iff {b : Blk} {bs : List Blk} {h w : Nat} {ws : List Nat}
    {d : Dtype} :
    validRow (b :: bs) h (w :: ws) d = true ↔
      validBlk b = true ∧ b.shape0 = h ∧ b.shape1 = w ∧ b.dtypeOf = d ∧
      validRow bs h ws d = true := by
  simp [validRow, Bool.and_eq_true, decide_eq_true_eq, and_assoc]

theorem validRow_length_eq : ∀ {row : List Blk} {h : Nat} {csh : List Nat} {d : Dtype},
    validRow row h csh d = true → row.length = csh.length := by
  intro row
  induction row with
  | nil =>
    intro h csh d hv
    cases csh with
    | nil => rfl
    | cons w ws => simp [validRow] at hv
  | cons b bs ih =>
    intro h csh d hv
    cases csh with
    | nil => simp [validRow] at hv
    | cons w ws =>
      rw [validRow_cons_iff] at hv
      simp [ih hv.2.2.2.2]

theorem validGrid_length_eq : ∀ {g : List (List Blk)} {rsh csh : List Nat} {d : Dtype},
    validGrid g rsh csh d = true → g.length = rsh.length := by
  intro g
  induction g with
  | nil =>
    intro rsh csh d hv
    cases rsh with
    | nil => rfl
    | cons h hs => simp [validGrid] at hv
  | cons row rest ih =>
    intro rsh csh d hv
    cases rsh with
    | nil => simp [validGrid] at hv
    | cons h hs =>
      rw [validGrid_cons_iff] at hv
      simp [ih hv.2]

theorem ndim_of_valid {b : Blk} (h : validBlk b = true) : b.ndim = 2 := by
  cases b with
  | arr d sh rows =>
    rw [validBlk_arr_iff] at h
    simp [Blk.ndim, h.1]
  | blm g rsh csh nbR nbC s0 s1 d => rfl

theorem sizeOf_lt_of_mem_grid {b : Blk} {row : List Blk} {grid : List (List Blk)}
    (hb : b ∈ row) (hrow : row ∈ grid) (rsh csh : List Nat)
    (nbR nbC s0 s1 : Nat) (d : Dtype) :
    sizeOf b < sizeOf (Blk.blm grid rsh csh nbR nbC s0 s1 d) := by
  have h1 := List.sizeOf_lt_of_mem hb
  have h2 := List.sizeOf_lt_of_mem hrow
  simp only [Blk.blm.sizeOf_spec]
  omega

/-- Constructor behavior on a valid grid with precomputed shapes and
validation skipped: the tree is assembled from the supplied metadata, the
grid dimensions and the (0, 0) slot's dtype, and is valid. -/
theorem init_stored_of_valid {g : List (List Blk)} {rsh csh : List Nat} {d : Dtype}
    (hvg : validGrid g rsh csh d = true) (hg : g ≠ []) (hcsh : csh ≠ []) :
    init g (some (rsh, csh)) false =
      .ok (.blm g rsh csh g.length csh.length rsh.sum csh.sum d) ∧
    validBlk (.blm g rsh csh g.length csh.length rsh.sum csh.sum d) = true := by
  cases g with
  | nil => exact absurd rfl hg
  | cons row rest =>
    cases rsh with
    | nil => simp [validGrid] at hvg
    | cons h hs =>
      rw [validGrid_cons_iff] at hvg
      obtain ⟨hvr, hvrest⟩ := hvg
      cases csh with
      | nil => exact absurd rfl hcsh
      | cons w ws =>
        cases row with
        | nil => simp [validRow] at hvr
        | cons b00 brest =>
          rw [validRow_cons_iff] at hvr
          obtain ⟨hvb, hs0, hs1, hd, hvtail⟩ := hvr
          have hnd : b00.ndim = 2 := ndim_of_valid hvb
          have hlen : brest.length = ws.length := validRow_length_eq hvtail
          constructor
          · simp [init, hnd, hd, hlen]
          · rw [validBlk_blm_iff]
            refine ⟨?_, by simp, by simp, by simp, by simp, rfl, rfl⟩
            rw [validGrid_cons_iff]
            exact ⟨validRow_cons_iff.mpr ⟨hvb, hs0, hs1, hd, hvtail⟩, hvrest⟩

/-! ### Pointwise lemmas for dense buffers -/

theorem getD_map_int {f : Int → Int} {l : List Int} {i : Nat} (h : i < l.length) :
    (l.map f).getD i 0 = f (l.getD i 0) := by
  rw [List.getD_eq_getElem _ _ (by simpa using h), List.getD_eq_getElem _ _ h]
  simp

theorem getD_zipWith_int {f : Int → Int → Int} {a b : List Int} {i : Nat}
    (ha : i < a.length) (hb : i < b.length) :
    (List.zipWith f a b).getD i 0 = f (a.getD i 0) (b.getD i 0) := by
  rw [List.getD_eq_getElem _ _ (by rw [List.length_zipWith]; omega),
      List.getD_eq_getElem _ _ ha, List.getD_eq_getElem _ _ hb]
  simp

theorem getD_zipWith_rows {f : Int → Int → Int} {r1 r2 : List (List Int)} {i : Nat}
    (h1 : i < r1.length) (h2 : i < r2.length) :
    (List.zipWith (fun a b => List.zipWith f a b) r1 r2).getD i [] =
      List.zipWith f (r1.getD i []) (r2.getD i []) := by
  rw [List.getD_eq_getElem _ _ (by rw [List.length_zipWith]; omega),
      List.getD_eq_getElem _ _ h1, List.getD_eq_getElem _ _ h2]
  simp

theorem zipWith_rows_rect : ∀ (r1 r2 : List (List Int)) (f : Int → Int → Int) (w : Nat),
    (∀ r ∈ r1, r.length = w) → (∀ r ∈ r2, r.length = w) →
    ∀ r ∈ List.zipWith (fun a b => List.zipWith f a b) r1 r2, r.length = w := by
  intro r1
  induction r1 with
  | nil => intro r2 f w _ _ r hr; simp at hr
  | cons a as ih =>
    intro r2 f w h1 h2 r hr
    cases r2 with
    | nil => simp at hr
    | cons b bs =>
      simp only [List.zipWith_cons_cons, List.mem_cons] at hr
      rcases hr with rfl | hr
      · rw [List.length_zipWith, h1 a (by simp), h2 b (by simp)]
        simp
      · exact ih bs f w (fun x hx => h1 x (by simp [hx])) (fun x hx => h2 x (by simp [hx])) r hr

theorem getD_mem_of_lt {l : List (List Int)} {i : Nat} (h : i < l.length) :
    l.getD i [] ∈ l := by
  rw [List.getD_eq_getElem _ _ h]
  exact List.getElem_mem h

/-! ### Elementwise equality characterization -/

theorem zipRowB_eq_spec : ∀ (r1 : List Blk), (∀ b ∈ r1, EqSpecP b) →
    ∀ (r2 : List Blk) (h : Nat) (ws : List Nat) (d1 d2 : Dtype),
    validRow r1 h ws d1 = true → validRow r2 h ws d2 = true →
    structMatchRow r1 r2 = true →
    ∃ r, zipRowB .eq r1 r2 = .ok r ∧ validRow r h ws .bool = true ∧
      ∀ i j, i < h → j < ws.sum →
        entryRow r ws i j = (if entryRow r1 ws i j = entryRow r2 ws i j then 1 else 0) := by
  intro r1
  induction r1 with
  | nil =>
    intro _ r2 h ws d1 d2 hv1 hv2 hsm
    cases ws with
    | cons w ws' => simp [validRow] at hv1
    | nil =>
      cases r2 with
      | cons b2 bs2 => simp [structMatchRow] at hsm
      | nil =>
        refine ⟨[], rfl, by simp [validRow], ?_⟩
        intro i j hi hj
        simp at hj
  | cons b bs ih =>
    intro hIH r2 h ws d1 d2 hv1 hv2 hsm
    cases ws with
    | nil => simp [validRow] at hv1
    | cons w ws' =>
      cases r2 with
      | nil => simp [structMatchRow] at hsm
      | cons b2 bs2 =>
        rw [validRow_cons_iff] at hv1 hv2
        obtain ⟨hvb, hb0, hb1, hbd, hvbs⟩ := hv1
        obtain ⟨hvb2, hb20, hb21, hbd2, hvbs2⟩ := hv2
        have hsm2 : structMatch b b2 = true ∧ structMatchRow bs bs2 = true := by
          simpa [structMatchRow, Bool.and_eq_true] using hsm
        obtain ⟨c, hc, hcv, hcd, hc0, hc1, hcn, hce⟩ :=
          hIH b (by simp) b2 hvb hvb2 hsm2.1
        obtain ⟨r, hr, hrv, hre⟩ :=
          ih (fun x hx => hIH x (by simp [hx])) bs2 h ws' d1 d2 hvbs hvbs2 hsm2.2
        refine ⟨c :: r, ?_, ?_, ?_⟩
        · simp only [zipRowB]
          rw [hc, exc_ok_bind, hr, exc_ok_bind]
        · rw [validRow_cons_iff]
          exact ⟨hcv, by rw [hc0, hb0], by rw [hc1, hb1], hcd, hrv⟩
        · intro i j hi hj
          by_cases hjw : j < w
          · simp only [entryRow, hjw, if_true]
            exact hce i j (by rw [hb0]; exact hi) (by rw [hb1]; exact hjw)
          · simp only [entryRow, hjw, if_false]
            refine hre i (j - w) hi ?_
            simp only [List.sum_cons] at hj
            omega

theorem zipGridB_eq_spec : ∀ (g1 : List (List Blk)),
    (∀ row ∈ g1, ∀ b ∈ row, EqSpecP b) →
    ∀ (g2 : List (List Blk)) (rsh csh : List Nat) (d1 d2 : Dtype),
    validGrid g1 rsh csh d1 = true → validGrid g2 rsh csh d2 = true →
    structMatchGrid g1 g2 = true →
    ∃ g, zipGridB .eq g1 g2 = .ok g ∧ validGrid g rsh csh .bool = true ∧
      ∀ i j, i < rsh.sum → j < csh.sum →
        entryGrid g rsh csh i j =
          (if entryGrid g1 rsh csh i j = entryGrid g2 rsh csh i j then 1 else 0) := by
  intro g1
  induction g1 with
  | nil =>
    intro _ g2 rsh csh d1 d2 hv1 hv2 hsm
    cases rsh with
    | cons h hs => simp [validGrid] at hv1
    | nil =>
      cases g2 with
      | cons r2 rest2 => simp [structMatchGrid] at hsm
      | nil =>
        refine ⟨[], rfl, by simp [validGrid], ?_⟩
        intro i j hi hj
        simp at hi
  | cons row rest ih =>
    intro hIH g2 rsh csh d1 d2 hv1 hv2 hsm
    cases rsh with
    | nil => simp [validGrid] at hv1
    | cons h hs =>
      cases g2 with
      | nil => simp [structMatchGrid] at hsm
      | cons row2 rest2 =>
        rw [validGrid_cons_iff] at hv1 hv2
        obtain ⟨hvr, hvrest⟩ := hv1
        obtain ⟨hvr2, hvrest2⟩ := hv2
        have hsm2 : structMatchRow row row2 = true ∧ structMatchGrid rest rest2 = true := by
          simpa [structMatchGrid, Bool.and_eq_true] using hsm
        obtain ⟨r, hr, hrv, hre⟩ :=
          zipRowB_eq_spec row (fun b hb => hIH row (by simp) b hb) row2 h csh d1 d2
            hvr hvr2 hsm2.1
        obtain ⟨g, hg, hgv, hge⟩ :=
          ih (fun x hx b hb => hIH x (by simp [hx]) b hb) rest2 hs csh d1 d2
            hvrest hvrest2 hsm2.2
        refine ⟨r :: g, ?_, ?_, ?_⟩
        · simp only [zipGridB]
          rw [hr, exc_ok_bind, hg, exc_ok_bind]
        · rw [validGrid_cons_iff]
          exact ⟨hrv, hgv⟩
        · intro i j hi hj
          by_cases hih : i < h
          · simp only [entryGrid, hih, if_true]
            exact hre i j hih hj
          · simp only [entryGrid, hih, if_false]
            refine hge (i - h) j ?_ hj
            simp only [List.sum_cons] at hi
            omega

theorem sizeOf_blk_pos (b : Blk) : 0 < sizeOf b := by
  cases b with
  | arr d sh rows => simp only [Blk.arr.sizeOf_spec]; omega
  | blm g rsh csh nbR nbC s0 s1 d => simp only [Blk.blm.sizeOf_spec]; omega

theorem eqSpec_all : ∀ (n : Nat) (b1 : Blk), sizeOf b1 ≤ n → EqSpecP b1 := by
  intro n
  induction n with
  | zero =>
    intro b1 h
    exact absurd h (by have := sizeOf_blk_pos b1; omega)
  | succ n ih =>
    intro b1 hsz b2 hv1 hv2 hsm
    cases b1 with
    | arr d1 sh1 r1 =>
      cases b2 with
      | blm g2 rsh2 csh2 nbR2 nbC2 s02 s12 d2 => simp [structMatch] at hsm
      | arr d2 sh2 r2 =>
        have hsh : sh1 = sh2 := by simpa [structMatch] using hsm
        rw [validBlk_arr_iff] at hv1 hv2
        obtain ⟨hsh1, hrect1⟩ := hv1
        obtain ⟨hsh2, hrect2⟩ := hv2
        have hdims : r1.length = r2.length ∧ (r1.headD []).length = (r2.headD []).length := by
          rw [hsh1, hsh2] at hsh
          simpa using hsh
        refine ⟨.arr .bool sh1 (List.zipWith (fun a b => List.zipWith (bopVal .eq) a b) r1 r2),
          ?_, ?_, rfl, rfl, rfl, rfl, ?_⟩
        · simp [slotBOp, npBinop, hsh, bopDtype]
        · rw [validBlk_arr_iff]
          constructor
          · rw [List.length_zipWith, ← hdims.1, Nat.min_self]
            cases r1 with
            | nil =>
              cases r2 with
              | nil => simpa using hsh1
              | cons y ys => simp at hdims
            | cons x xs =>
              cases r2 with
              | nil => simp at hdims
              | cons y ys =>
                simp only [List.zipWith_cons_cons, List.headD_cons]
                rw [hsh1]
                simp only [List.headD_cons]
                have hxy : x.length = y.length := by simpa using hdims.2
                rw [List.length_zipWith, ← hxy, Nat.min_self]
          · intro r hr
            have hw := zipWith_rows_rect r1 r2 (bopVal .eq) (r1.headD []).length hrect1
              (fun x hx => by rw [hrect2 x hx, ← hdims.2]) r hr
            rw [hw]
            cases r1 with
            | nil => simp at hr
            | cons x xs =>
              cases r2 with
              | nil => simp at hr
              | cons y ys =>
                simp only [List.zipWith_cons_cons, List.headD_cons]
                have hxy : x.length = y.length := by simpa using hdims.2
                rw [List.length_zipWith, ← hxy, Nat.min_self]
        · intro i j hi hj
          have hi1 : i < r1.length := by
            simp only [Blk.shape0, hsh1] at hi
            simpa using hi
          have hj1 : j < (r1.headD []).length := by
            simp only [Blk.shape1, hsh1] at hj
            simpa using hj
          have hi2 : i < r2.length := hdims.1 ▸ hi1
          simp only [entryBlk]
          rw [getD_zipWith_rows hi1 hi2,
              getD_zipWith_int (by rw [hrect1 _ (getD_mem_of_lt hi1)]; exact hj1)
                (by rw [hrect2 _ (getD_mem_of_lt hi2), ← hdims.2]; exact hj1)]
          rfl
    | blm g1 rsh1 csh1 nbR1 nbC1 s01 s11 d1 =>
      cases b2 with
      | arr d2 sh2 r2 => simp [structMatch] at hsm
      | blm g2 rsh2 csh2 nbR2 nbC2 s02 s12 d2 =>
        have hsm2 : rsh1 = rsh2 ∧ csh1 = csh2 ∧ nbR1 = nbR2 ∧ nbC1 = nbC2 ∧
            structMatchGrid g1 g2 = true := by
          simpa [structMatch, Bool.and_eq_true, and_assoc] using hsm
        obtain ⟨h1, h2, h3, h4, hsmg⟩ := hsm2
        cases h1; cases h2; cases h3; cases h4
        rw [validBlk_blm_iff] at hv1 hv2
        obtain ⟨hvg1, hg1ne, hcshne, hnbR, hnbC, hs0, hs1⟩ := hv1
        obtain ⟨hvg2, hg2ne, _, _, _, _, _⟩ := hv2
        have hIH : ∀ row ∈ g1, ∀ b ∈ row, EqSpecP b := by
          intro row hrow b hb
          apply ih
          have := sizeOf_lt_of_mem_grid hb hrow rsh1 csh1 nbR1 nbC1 s01 s11 d1
          omega
        obtain ⟨g, hg, hgv, hge⟩ :=
          zipGridB_eq_spec g1 hIH g2 rsh1 csh1 d1 d2 hvg1 hvg2 hsmg
        have hgne : g ≠ [] := by
          have ha := validGrid_length_eq hgv
          have hb := validGrid_length_eq hvg1
          intro hnil
          subst hnil
          simp only [List.length_nil] at ha
          cases g1 with
          | nil => exact hg1ne rfl
          | cons a as => rw [← ha] at hb; simp at hb
        obtain ⟨hinit, hvc⟩ := init_stored_of_valid hgv hgne hcshne
        refine ⟨_, ?_, hvc, rfl, ?_, ?_, ?_, ?_⟩
        · simp only [slotBOp, and_self, if_true]
          rw [hg, exc_ok_bind, hinit]
        · simp only [Blk.shape0]
          omega
        · simp only [Blk.shape1]
          omega
        · simp only [Blk.nbBlocks]
          have := validGrid_length_eq hgv
          have h2 := validGrid_length_eq hvg1
          rw [hnbR, hnbC, this, h2]
        · intro i j hi hj
          simp only [entryBlk]
          apply hge
          · simp only [Blk.shape0] at hi
            omega
          · simp only [Blk.shape1] at hj
            omega

/-! ### Boolean-not characterization -/

theorem mapRowU_inv_spec : ∀ (r1 : List Blk), (∀ b ∈ r1, InvSpecP b) →
    ∀ (h : Nat) (ws : List Nat) (d : Dtype),
    validRow r1 h ws d = true →
    ∃ r, mapRowU .uInvert r1 = .ok r ∧ validRow r h ws d = true ∧
      ∀ i j, i < h → j < ws.sum →
        entryRow r ws i j = invVal d (entryRow r1 ws i j) := by
  intro r1
  induction r1 with
  | nil =>
    intro _ h ws d hv
    cases ws with
    | cons w ws' => simp [validRow] at hv
    | nil =>
      refine ⟨[], rfl, by simp [validRow], ?_⟩
      intro i j hi hj
      simp at hj
  | cons b bs ih =>
    intro hIH h ws d hv
    cases ws with
    | nil => simp [validRow] at hv
    | cons w ws' =>
      rw [validRow_cons_iff] at hv
      obtain ⟨hvb, hb0, hb1, hbd, hvbs⟩ := hv
      obtain ⟨c, hc, hcv, hcd, hc0, hc1, hcn, hce⟩ := hIH b (by simp) hvb
      obtain ⟨r, hr, hrv, hre⟩ := ih (fun x hx => hIH x (by simp [hx])) h ws' d hvbs
      refine ⟨c :: r, ?_, ?_, ?_⟩
      · simp only [mapRowU]
        rw [hc, exc_ok_bind, hr, exc_ok_bind]
      · rw [validRow_cons_iff]
        exact ⟨hcv, by rw [hc0, hb0], by rw [hc1, hb1], by rw [hcd, hbd], hrv⟩
      · intro i j hi hj
        by_cases hjw : j < w
        · simp only [entryRow, hjw, if_true]
          rw [hce i j (by rw [hb0]; exact hi) (by rw [hb1]; exact hjw), hbd]
        · simp only [entryRow, hjw, if_false]
          refine hre i (j - w) hi ?_
          simp only [List.sum_cons] at hj
          omega

theorem mapGridU_inv_spec : ∀ (g1 : List (List Blk)),
    (∀ row ∈ g1, ∀ b ∈ row, InvSpecP b) →
    ∀ (rsh csh : List Nat) (d : Dtype), validGrid g1 rsh csh d = true →
    ∃ g, mapGridU .uInvert g1 = .ok g ∧ validGrid g rsh csh d = true ∧
      ∀ i j, i < rsh.sum → j < csh.sum →
        entryGrid g rsh csh i j = invVal d (entryGrid g1 rsh csh i j) := by
  intro g1
  induction g1 with
  | nil =>
    intro _ rsh csh d hv
    cases rsh with
    | cons h hs => simp [validGrid] at hv
    | nil =>
      refine ⟨[], rfl, by simp [validGrid], ?_⟩
      intro i j hi hj
      simp at hi
  | cons row rest ih =>
    intro hIH rsh csh d hv
    cases rsh with
    | nil => simp [validGrid] at hv
    | cons h hs =>
      rw [validGrid_cons_iff] at hv
      obtain ⟨hvr, hvrest⟩ := hv
      obtain ⟨r, hr, hrv, hre⟩ :=
        mapRowU_inv_spec row (fun b hb => hIH row (by simp) b hb) h csh d hvr
      obtain ⟨g, hg, hgv, hge⟩ :=
        ih (fun x hx b hb => hIH x (by simp [hx]) b hb) hs csh d hvrest
      refine ⟨r :: g, ?_, ?_, ?_⟩
      · simp only [mapGridU]
        rw [hr, exc_ok_bind, hg, exc_ok_bind]
      · rw [validGrid_cons_iff]
        exact ⟨hrv, hgv⟩
      · intro i j hi hj
        by_cases hih : i < h
        · simp only [entryGrid, hih, if_true]
          exact hre i j hih hj
        · simp only [entryGrid, hih, if_false]
          refine hge (i - h) j ?_ hj
          simp only [List.sum_cons] at hi
          omega

theorem invSpec_all : ∀ (n : Nat) (b : Blk), sizeOf b ≤ n → InvSpecP b := by
  intro n
  induction n with
  | zero =>
    intro b h
    exact absurd h (by have := sizeOf_blk_pos b; omega)
  | succ n ih =>
    intro b hsz hv
    cases b with
    | arr d sh rows =>
      rw [validBlk_arr_iff] at hv
      obtain ⟨hsh, hrect⟩ := hv
      refine ⟨.arr d sh (rows.map (fun r => r.map (invVal d))),
        by simp [slotUOp, leafUOp], ?_, rfl, rfl, rfl, rfl, ?_⟩
      · rw [validBlk_arr_iff]
        constructor
        · rw [hsh]
          cases rows with
          | nil => simp
          | cons x xs => simp
        · intro r hr
          obtain ⟨r0, hr0, rfl⟩ := List.mem_map.mp hr
          rw [List.length_map, hrect r0 hr0]
          cases rows with
          | nil => simp at hr0
          | cons x xs => simp
      · intro i j hi hj
        have hi1 : i < rows.length := by
          simp only [Blk.shape0, hsh] at hi
          simpa using hi
        have hj1 : j < (rows.getD i []).length := by
          rw [hrect _ (getD_mem_of_lt hi1)]
          simp only [Blk.shape1, hsh] at hj
          simpa using hj
        simp only [entryBlk, Blk.dtypeOf]
        have houter : (rows.map (fun r => r.map (invVal d))).getD i [] =
            (rows.getD i []).map (invVal d) := by
          rw [List.getD_eq_getElem _ _ (by simpa using hi1),
              List.getD_eq_getElem _ _ hi1, List.getElem_map]
        rw [houter, getD_map_int hj1]
    | blm g1 rsh1 csh1 nbR1 nbC1 s01 s11 d1 =>
      rw [validBlk_blm_iff] at hv
      obtain ⟨hvg1, hg1ne, hcshne, hnbR, hnbC, hs0, hs1⟩ := hv
      have hIH : ∀ row ∈ g1, ∀ b ∈ row, InvSpecP b := by
        intro row hrow b hb
        apply ih
        have := sizeOf_lt_of_mem_grid hb hrow rsh1 csh1 nbR1 nbC1 s01 s11 d1
        omega
      obtain ⟨g, hg, hgv, hge⟩ := mapGridU_inv_spec g1 hIH rsh1 csh1 d1 hvg1
      have hgne : g ≠ [] := by
        have ha := validGrid_length_eq hgv
        have hb := validGrid_length_eq hvg1
        intro hnil
        subst hnil
        simp only [List.length_nil] at ha
        cases g1 with
        | nil => exact hg1ne rfl
        | cons a as => rw [← ha] at hb; simp at hb
      obtain ⟨hinit, hvc⟩ := init_stored_of_valid hgv hgne hcshne
      refine ⟨_, ?_, hvc, rfl, ?_, ?_, ?_, ?_⟩
      · simp only [slotUOp]
        rw [hg, exc_ok_bind, hinit]
      · simp only [Blk.shape0]
        omega
      · simp only [Blk.shape1]
        omega
      · simp only [Blk.nbBlocks]
        have ha := validGrid_length_eq hgv
        have hb := validGrid_length_eq hvg1
        rw [hnbR, hnbC, ha, hb]
      · intro i j hi hj
        simp only [entryBlk, Blk.dtypeOf]
        apply hge
        · simp only [Blk.shape0] at hi
          omega
        · simp only [Blk.shape1] at hj
          omega

theorem shapeOf_eq (b : Blk) : b.shapeOf = (b.shape0, b.shape1) := by
  cases b <;> rfl

/-! ### Claim C9: inequality is the elementwise not of equality -/

/-- C9: on valid structure-matched trees (in particular, identical
`nb_blocks`), `__ne__` — which the source computes as `~(self == other)` —
returns a tree with the same grid and boolean leaves whose entry at every
coordinate is true (1) exactly where the corresponding entries of the two
operands differ, i.e. the elementwise logical not of the elementwise
equality. -/
theorem C9_ne_is_elementwise_not_of_eq
    (g1 : List (List Blk)) (rsh1 csh1 : List Nat) (nbR1 nbC1 s01 s11 : Nat) (d1 : Dtype)
    (g2 : List (List Blk)) (rsh2 csh2 : List Nat) (nbR2 nbC2 s02 s12 : Nat) (d2 : Dtype)
    (hv1 : validBlk (.blm g1 rsh1 csh1 nbR1 nbC1 s01 s11 d1) = true)
    (hv2 : validBlk (.blm g2 rsh2 csh2 nbR2 nbC2 s02 s12 d2) = true)
    (hsm : structMatch (.blm g1 rsh1 csh1 nbR1 nbC1 s01 s11 d1)
                       (.blm g2 rsh2 csh2 nbR2 nbC2 s02 s12 d2) = true) :
    ∃ c, neBM (.blm g1 rsh1 csh1 nbR1 nbC1 s01 s11 d1)
              (.blm g2 rsh2 csh2 nbR2 nbC2 s02 s12 d2) = .ok (.val c) ∧
      validBlk c = true ∧ c.dtypeOf = .bool ∧
      c.nbBlocks = (nbR1, nbC1) ∧ c.shapeOf = (s01, s11) ∧
      ∀ i j, i < s01 → j < s11 →
        entryBlk c i j =
          (if entryBlk (.blm g1 rsh1 csh1 nbR1 nbC1 s01 s11 d1) i j
             = entryBlk (.blm g2 rsh2 csh2 nbR2 nbC2 s02 s12 d2) i j then 0 else 1) := by
  have hsm2 : rsh1 = rsh2 ∧ csh1 = csh2 ∧ nbR1 = nbR2 ∧ nbC1 = nbC2 ∧
      structMatchGrid g1 g2 = true := by
    simpa [structMatch, Bool.and_eq_true, and_assoc] using hsm
  obtain ⟨h1, h2, h3, h4, hsmg⟩ := hsm2
  cases h1; cases h2; cases h3; cases h4
  rw [validBlk_blm_iff] at hv1 hv2
  obtain ⟨hvg1, hg1ne, hcshne, hnbR, hnbC, hs0, hs1⟩ := hv1
  obtain ⟨hvg2, _, _, _, _, _, _⟩ := hv2
  obtain ⟨g, hg, hgv, hge⟩ :=
    zipGridB_eq_spec g1 (fun _ _ b _ => eqSpec_all (sizeOf b) b le_rfl)
      g2 rsh1 csh1 d1 d2 hvg1 hvg2 hsmg
  have hgne : g ≠ [] := by
    have ha := validGrid_length_eq hgv
    have hb := validGrid_length_eq hvg1
    intro hnil
    subst hnil
    simp only [List.length_nil] at ha
    cases g1 with
    | nil => exact hg1ne rfl
    | cons a as => rw [← ha] at hb; simp at hb
  obtain ⟨hinit, hvc⟩ := init_stored_of_valid hgv hgne hcshne
  obtain ⟨c2, hc2, hc2v, hc2d, hc20, hc21, hc2n, hc2e⟩ :=
    invSpec_all _ (Blk.blm g rsh1 csh1 g.length csh1.length rsh1.sum csh1.sum .bool)
      le_rfl hvc
  have happ : applyBinaryOp .eq (.blm g1 rsh1 csh1 nbR1 nbC1 s01 s11 d1)
      (.blm g2 rsh1 csh1 nbR1 nbC1 s02 s12 d2) = .ok (.val
        (Blk.blm g rsh1 csh1 g.length csh1.length rsh1.sum csh1.sum .bool)) := by
    simp only [applyBinaryOp, and_self, if_true]
    rw [hg, exc_ok_bind, hinit, exc_ok_bind]
  refine ⟨c2, ?_, hc2v, by rw [hc2d]; rfl, ?_, ?_, ?_⟩
  · simp only [neBM, eqBM]
    rw [happ, exc_ok_bind]
    simp only [invertE]
    rw [hc2, exc_ok_bind]
  · rw [hc2n]
    simp only [Blk.nbBlocks]
    have ha := validGrid_length_eq hgv
    have hb := validGrid_length_eq hvg1
    rw [hnbR, hnbC, ha, hb]
  · rw [shapeOf_eq, hc20, hc21]
    simp only [Blk.shape0, Blk.shape1]
    rw [hs0, hs1]
  · intro i j hi hj
    have hi2 : i < rsh1.sum := by omega
    have hj2 : j < csh1.sum := by omega
    have he := hc2e i j (by simpa [Blk.shape0] using hi2) (by simpa [Blk.shape1] using hj2)
    rw [he]
    have heq := hge i j hi2 hj2
    simp only [Blk.dtypeOf, entryBlk] at heq ⊢
    rw [heq]
    by_cases hEq : entryGrid g1 rsh1 csh1 i j = entryGrid g2 rsh1 csh1 i j
    · rw [if_pos hEq, if_pos hEq]
      simp [invVal]
    · rw [if_neg hEq, if_neg hEq]
      simp [invVal]

/-- C9 witness: on the valid pair (`sampleSquare`, `sampleSquare2`), which
differ exactly in the bottom-right block, `__ne__` yields the boolean tree
flagging that block. -/
theorem C9_witness :
    ∃ c, neBM sampleSquare sampleSquare2 = .ok (.val c) ∧
      validBlk c = true ∧ c.dtypeOf = .bool ∧
      c.nbBlocks = (2, 2) ∧ c.shapeOf = (4, 4) ∧
      ∀ i j, i < 4 → j < 4 →
        entryBlk c i j =
          (if entryBlk sampleSquare i j = entryBlk sampleSquare2 i j then 0 else 1) :=
  C9_ne_is_elementwise_not_of_eq
    [[leafA, leafB], [leafC, leafD]] [2, 2] [2, 2] 2 2 4 4 .float
    [[leafA, leafB], [leafC, leafA]] [2, 2] [2, 2] 2 2 4 4 .float
    (by decide) (by decide) (by decide)

/-! ### Matvec characterization -/

theorem promote_of_kind_le {a b : Dtype} (h : a.kind ≤ b.kind) : promote a b = b := by
  simp [promote, h]

theorem canCast_self (a : Dtype) : canCastSameKind a a = true := by
  simp [canCastSameKind]

theorem getD_drop_take {l : List Int} {cp w j : Nat} (hj : j < w) (hle : cp + w ≤ l.length) :
    ((l.drop cp).take w).getD j 0 = l.getD (cp + j) 0 := by
  rw [List.getD_eq_getElem _ _ (by rw [List.length_take, List.length_drop]; omega),
      List.getD_eq_getElem _ _ (by omega)]
  rw [List.getElem_take]
  rw [List.getElem_drop]

theorem length_drop_take {l : List Int} {cp w : Nat} (hle : cp + w ≤ l.length) :
    ((l.drop cp).take w).length = w := by
  rw [List.length_take, List.length_drop]
  omega

theorem getD_replicate_zero (n i : Nat) : (List.replicate n (0 : Int)).getD i 0 = 0 := by
  by_cases h : i < n
  · rw [List.getD_eq_getElem _ _ (by simpa using h)]
    simp
  · rw [List.getD_eq_default _ _ (by simpa using h)]

theorem mvRow_spec : ∀ (row : List Blk), (∀ b ∈ row, MvSpecP b) →
    ∀ (ws : List Nat) (h : Nat) (d : Dtype) (res : NpVec) (lp cp : Nat) (v : NpVec),
    validRow row h ws d = true →
    Dtype.kind d ≤ Dtype.kind v.dtype →
    res.dtype = v.dtype →
    cp + ws.sum ≤ v.data.length →
    lp + h ≤ res.data.length →
    ∃ data, mvRow row ws res lp h cp v = .ok ⟨v.dtype, data⟩ ∧
      data.length = res.data.length ∧
      ∀ i, data.getD i 0 = res.data.getD i 0 +
        (if lp ≤ i ∧ i < lp + h then
          rsum ws.sum (fun j => entryRow row ws (i - lp) j * v.data.getD (cp + j) 0)
        else 0) := by
  intro row
  induction row with
  | nil =>
    intro _ ws h d res lp cp v hv hk hdv hcw hlh
    cases ws with
    | cons w ws' => simp [validRow] at hv
    | nil =>
      obtain ⟨rdt, rdata⟩ := res
      simp only at hdv
      subst hdv
      refine ⟨rdata, by simp [mvRow], rfl, ?_⟩
      intro i
      simp [rsum]
  | cons b bs ih =>
    intro hIH ws h d res lp cp v hv hk hdv hcw hlh
    cases ws with
    | nil => simp [validRow] at hv
    | cons w ws' =>
      rw [validRow_cons_iff] at hv
      obtain ⟨hvb, hb0, hb1, hbd, hvbs⟩ := hv
      simp only [List.sum_cons] at hcw
      have hseglen : ((v.data.drop cp).take w).length = w :=
        length_drop_take (by omega)
      obtain ⟨cdata, hc, hclen, hce⟩ :=
        hIH b (by simp) ⟨v.dtype, (v.data.drop cp).take w⟩ hvb
          (by rw [hbd]; exact hk) (by rw [hseglen, hb1])
      have hcdlen : cdata.length = h := by rw [hclen, hb0]
      have haddok : addInto res lp h ⟨v.dtype, cdata⟩ =
          .ok ⟨res.dtype, (List.range res.data.length).map (fun i =>
            if lp ≤ i ∧ i < lp + h then res.data.getD i 0 + cdata.getD (i - lp) 0
            else res.data.getD i 0)⟩ := by
        unfold addInto
        rw [if_pos (by simp only []; rw [hcdlen]; exact (length_drop_take hlh).symm)]
        rw [if_pos (by simp only []; rw [hdv]; exact canCast_self _)]
      obtain ⟨dataF, hF, hFlen, hFe⟩ :=
        ih (fun x hx => hIH x (by simp [hx])) ws' h d
          ⟨res.dtype, (List.range res.data.length).map (fun i =>
            if lp ≤ i ∧ i < lp + h then res.data.getD i 0 + cdata.getD (i - lp) 0
            else res.data.getD i 0)⟩ lp (cp + w) v hvbs hk hdv
          (by show cp + w + ws'.sum ≤ v.data.length; omega)
          (by simp only [List.length_map, List.length_range]; exact hlh)
      refine ⟨dataF, ?_, by simpa using hFlen, ?_⟩
      · simp only [mvRow]
        rw [hc, exc_ok_bind, haddok, exc_ok_bind]
        exact hF
      · intro i
        rw [hFe i]
        by_cases hlen : i < res.data.length
        · have hmid : ((List.range res.data.length).map (fun i =>
              if lp ≤ i ∧ i < lp + h then res.data.getD i 0 + cdata.getD (i - lp) 0
              else res.data.getD i 0)).getD i 0 =
              if lp ≤ i ∧ i < lp + h then res.data.getD i 0 + cdata.getD (i - lp) 0
              else res.data.getD i 0 := getD_range_map hlen
          rw [hmid]
          by_cases hstrip : lp ≤ i ∧ i < lp + h
          · rw [if_pos hstrip, if_pos hstrip, if_pos hstrip]
            have hilph : i - lp < h := by omega
            rw [hce (i - lp) (by rw [hb0]; exact hilph)]
            simp only [List.sum_cons]
            rw [rsum_add w ws'.sum]
            have hseg : rsum b.shape1 (fun j => entryBlk b (i - lp) j *
                ((v.data.drop cp).take w).getD j 0) =
                rsum w (fun j => entryBlk b (i - lp) j * v.data.getD (cp + j) 0) := by
              rw [hb1]
              apply rsum_congr
              intro j hj
              rw [getD_drop_take hj (by omega)]
            rw [hseg]
            have hsplit1 : rsum w (fun j => entryRow (b :: bs) (w :: ws') (i - lp) j *
                v.data.getD (cp + j) 0) =
                rsum w (fun j => entryBlk b (i - lp) j * v.data.getD (cp + j) 0) := by
              apply rsum_congr
              intro j hj
              simp only [entryRow, hj, if_true]
            have hsplit2 : rsum ws'.sum (fun j => entryRow (b :: bs) (w :: ws') (i - lp) (w + j) *
                v.data.getD (cp + (w + j)) 0) =
                rsum ws'.sum (fun j => entryRow bs ws' (i - lp) j *
                  v.data.getD (cp + w + j) 0) := by
              apply rsum_congr
              intro j hj
              have hno : ¬(w + j < w) := by omega
              simp only [entryRow, hno, if_false]
              have e1 : w + j - w = j := by omega
              have e2 : cp + (w + j) = cp + w + j := by omega
              rw [e1, e2]
            rw [hsplit1, hsplit2]
            ring
          · rw [if_neg hstrip, if_neg hstrip, if_neg hstrip]
        · have hge1 : res.data.length ≤ i := by omega
          rw [List.getD_eq_default _ _ (by simpa using hge1),
              List.getD_eq_default _ _ hge1]
          have hnostrip : ¬(lp ≤ i ∧ i < lp + h) := by omega
          rw [if_neg hnostrip, if_neg hnostrip]

theorem mvGrid_spec : ∀ (g : List (List Blk)), (∀ row ∈ g, ∀ b ∈ row, MvSpecP b) →
    ∀ (rsh csh : List Nat) (d : Dtype) (res : NpVec) (lp : Nat) (v : NpVec),
    validGrid g rsh csh d = true →
    Dtype.kind d ≤ Dtype.kind v.dtype →
    res.dtype = v.dtype →
    csh.sum ≤ v.data.length →
    lp + rsh.sum ≤ res.data.length →
    ∃ data, mvGrid g rsh csh res lp v = .ok ⟨v.dtype, data⟩ ∧
      data.length = res.data.length ∧
      ∀ i, data.getD i 0 = res.data.getD i 0 +
        (if lp ≤ i ∧ i < lp + rsh.sum then
          rsum csh.sum (fun j => entryGrid g rsh csh (i - lp) j * v.data.getD j 0)
        else 0) := by
  intro g
  induction g with
  | nil =>
    intro _ rsh csh d res lp v hv hk hdv hcw hlh
    cases rsh with
    | cons hh hs => simp [validGrid] at hv
    | nil =>
      obtain ⟨rdt, rdata⟩ := res
      simp only at hdv
      subst hdv
      refine ⟨rdata, by simp [mvGrid], rfl, ?_⟩
      intro i
      have hno : ¬(lp ≤ i ∧ i < lp + ([] : List Nat).sum) := by
        simp only [List.sum_nil]
        omega
      rw [if_neg hno]
      simp
  | cons row rest ih =>
    intro hIH rsh csh d res lp v hv hk hdv hcw hlh
    cases rsh with
    | nil => simp [validGrid] at hv
    | cons hh hs =>
      rw [validGrid_cons_iff] at hv
      obtain ⟨hvr, hvrest⟩ := hv
      simp only [List.sum_cons] at hlh
      obtain ⟨data1, h1, h1len, h1e⟩ :=
        mvRow_spec row (fun b hb => hIH row (by simp) b hb) csh hh d res lp 0 v
          hvr hk hdv (by omega) (by omega)
      obtain ⟨dataF, hF, hFlen, hFe⟩ :=
        ih (fun x hx b hb => hIH x (by simp [hx]) b hb) hs csh d
          ⟨v.dtype, data1⟩ (lp + hh) v hvrest hk rfl hcw
          (by show lp + hh + hs.sum ≤ data1.length; omega)
      refine ⟨dataF, ?_, by rw [hFlen]; simpa using h1len, ?_⟩
      · simp only [mvGrid]
        rw [h1, exc_ok_bind]
        exact hF
      · intro i
        rw [hFe i]
        simp only []
        rw [h1e i]
        simp only [List.sum_cons]
        by_cases hstrip1 : lp ≤ i ∧ i < lp + hh
        · have hstripU : lp ≤ i ∧ i < lp + (hh + hs.sum) := by omega
          have hstrip2 : ¬(lp + hh ≤ i ∧ i < lp + hh + hs.sum) := by omega
          rw [if_pos hstrip1, if_neg hstrip2, if_pos hstripU]
          have hrow : rsum csh.sum (fun j => entryGrid (row :: rest) (hh :: hs) csh (i - lp) j *
              v.data.getD j 0) =
              rsum csh.sum (fun j => entryRow row csh (i - lp) j * v.data.getD j 0) := by
            apply rsum_congr
            intro j hj
            have hlt : i - lp < hh := by omega
            simp only [entryGrid, hlt, if_true]
          rw [hrow]
          have hz : ∀ j, v.data.getD (0 + j) 0 = v.data.getD j 0 := by
            intro j
            rw [Nat.zero_add]
          have : rsum csh.sum (fun j => entryRow row csh (i - lp) j * v.data.getD (0 + j) 0) =
              rsum csh.sum (fun j => entryRow row csh (i - lp) j * v.data.getD j 0) := by
            apply rsum_congr
            intro j _
            rw [hz j]
          rw [this]
          ring
        · rw [if_neg hstrip1]
          by_cases hstrip2 : lp + hh ≤ i ∧ i < lp + hh + hs.sum
          · have hstripU : lp ≤ i ∧ i < lp + (hh + hs.sum) := by omega
            rw [if_pos hstrip2, if_pos hstripU]
            have hrest : rsum csh.sum (fun j =>
                entryGrid (row :: rest) (hh :: hs) csh (i - lp) j * v.data.getD j 0) =
                rsum csh.sum (fun j =>
                  entryGrid rest hs csh (i - (lp + hh)) j * v.data.getD j 0) := by
              apply rsum_congr
              intro j hj
              have hge : ¬(i - lp < hh) := by omega
              simp only [entryGrid, hge, if_false]
              have : i - lp - hh = i - (lp + hh) := by omega
              rw [this]
            rw [hrest]
            ring
          · have hstripU : ¬(lp ≤ i ∧ i < lp + (hh + hs.sum)) := by omega
            rw [if_neg hstrip2, if_neg hstripU]
            ring

theorem mvSpec_all : ∀ (n : Nat) (b : Blk), sizeOf b ≤ n → MvSpecP b := by
  intro n
  induction n with
  | zero =>
    intro b h
    exact absurd h (by have := sizeOf_blk_pos b; omega)
  | succ n ih =>
    intro b hsz v hv hk hlen
    cases b with
    | arr d sh rows =>
      rw [validBlk_arr_iff] at hv
      obtain ⟨hsh, hrect⟩ := hv
      have hw : sh.getD 1 0 = v.data.length := by
        rw [hsh]
        simp only [Blk.shape1, hsh] at hlen
        simpa using hlen.symm
      refine ⟨rows.map (fun r => dotL r v.data), ?_, ?_, ?_⟩
      · simp only [matvecE, arrMatvec]
        have hk2 : d.kind ≤ v.dtype.kind := hk
        rw [if_pos hw, promote_of_kind_le hk2]
      · simp only [Blk.shape0, hsh]
        simp
      · intro i hi
        have hi1 : i < rows.length := by
          simp only [Blk.shape0, hsh] at hi
          simpa using hi
        have hmap : (rows.map (fun r => dotL r v.data)).getD i 0 =
            dotL (rows.getD i []) v.data := by
          rw [List.getD_eq_getElem _ _ (by simpa using hi1),
              List.getD_eq_getElem _ _ hi1, List.getElem_map]
        rw [hmap]
        have hrl : (rows.getD i []).length = v.data.length := by
          rw [hrect _ (getD_mem_of_lt hi1)]
          simp only [Blk.shape1, hsh] at hlen
          simpa using hlen.symm
        rw [dotL_eq_rsum _ _ hrl, hrl]
        have hs1 : (Blk.arr d sh rows).shape1 = v.data.length := hlen.symm
        rw [hs1]
        apply rsum_congr
        intro j hj
        simp only [entryBlk]
    | blm g rsh csh nbR nbC s0 s1 d =>
      rw [validBlk_blm_iff] at hv
      obtain ⟨hvg, hgne, hcshne, hnbR, hnbC, hs0, hs1⟩ := hv
      have hIH : ∀ row ∈ g, ∀ b ∈ row, MvSpecP b := by
        intro row hrow b hb
        apply ih
        have := sizeOf_lt_of_mem_grid hb hrow rsh csh nbR nbC s0 s1 d
        omega
      have hlenv : csh.sum ≤ v.data.length := by
        simp only [Blk.shape1] at hlen
        omega
      obtain ⟨data, hmv, hdlen, hde⟩ :=
        mvGrid_spec g hIH rsh csh d ⟨v.dtype, List.replicate s0 0⟩ 0 v hvg hk rfl hlenv
          (by show 0 + rsh.sum ≤ (List.replicate s0 (0 : Int)).length; simp; omega)
      refine ⟨data, ?_, ?_, ?_⟩
      · simp only [matvecE]
        exact hmv
      · simp only [Blk.shape0]
        rw [hdlen]
        simp [hs0]
      · intro i hi
        rw [hde i]
        simp only [Blk.shape0] at hi
        have hstrip : 0 ≤ i ∧ i < 0 + rsh.sum := by omega
        rw [if_pos hstrip]
        simp only [getD_replicate_zero]
        have hizero : i - 0 = i := by omega
        rw [hizero]
        simp only [Blk.shape1, entryBlk]
        rw [hs1]
        ring

/-! ### Flattening characterization -/

theorem rectM_of_getD {rows : List (List Int)} {nc : Nat}
    (h : ∀ i, i < rows.length → (rows.getD i []).length = nc) : rectM rows nc := by
  intro r hr
  obtain ⟨i, hi, heq⟩ := List.mem_iff_getElem.mp hr
  have := h i hi
  rw [List.getD_eq_getElem _ _ hi, heq] at this
  exact this

theorem rectM_getD {rows : List (List Int)} {nc : Nat} (h : rectM rows nc)
    {i : Nat} (hi : i < rows.length) : (rows.getD i []).length = nc := by
  exact h _ (getD_mem_of_lt hi)

theorem putRow_spec : ∀ (row : List Blk), (∀ b ∈ row, PutSpecP b) →
    ∀ (ws : List Nat) (h : Nat) (d : Dtype) (M : NpMat) (x c : Nat)
      (rest : List (Nat × Nat)),
    validRow row h ws d = true →
    M.rows.length = M.nr → rectM M.rows M.nc →
    x + h ≤ M.nr → c + ws.sum ≤ M.nc →
    canCastSameKind d M.dtype = true →
    ∃ rows2, putRow row ((accPos ws c).map (fun y => (x, y)) ++ rest) M =
        .ok (⟨M.dtype, M.nr, M.nc, rows2⟩, rest) ∧
      rows2.length = M.nr ∧ rectM rows2 M.nc ∧
      ∀ i j, i < M.nr → j < M.nc →
        getE rows2 i j =
          if x ≤ i ∧ i < x + h ∧ c ≤ j ∧ j < c + ws.sum
          then entryRow row ws (i - x) (j - c) else getE M.rows i j := by
  intro row
  induction row with
  | nil =>
    intro _ ws h d M x c rest hv hMl hMr hxh hcw hcast
    cases ws with
    | cons w ws' => simp [validRow] at hv
    | nil =>
      refine ⟨M.rows, ?_, hMl, hMr, ?_⟩
      · simp [accPos, putRow]
      · intro i j hi hj
        have hno : ¬(x ≤ i ∧ i < x + h ∧ c ≤ j ∧ j < c + ([] : List Nat).sum) := by
          simp only [List.sum_nil]
          omega
        rw [if_neg hno]
  | cons b bs ih =>
    intro hIH ws h d M x c rest hv hMl hMr hxh hcw hcast
    cases ws with
    | nil => simp [validRow] at hv
    | cons w ws' =>
      rw [validRow_cons_iff] at hv
      obtain ⟨hvb, hb0, hb1, hbd, hvbs⟩ := hv
      simp only [List.sum_cons] at hcw
      obtain ⟨rows1, hput1, hl1, hr1, he1⟩ :=
        hIH b (by simp) M x c hvb hMl hMr (by rw [hb0]; exact hxh)
          (by rw [hb1]; omega) (by rw [hbd]; exact hcast)
      obtain ⟨rows2, hput2, hl2, hr2, he2⟩ :=
        ih (fun y hy => hIH y (by simp [hy])) ws' h d ⟨M.dtype, M.nr, M.nc, rows1⟩
          x (c + w) rest hvbs hl1 hr1 hxh (by show c + w + ws'.sum ≤ M.nc; omega) hcast
      refine ⟨rows2, ?_, hl2, hr2, ?_⟩
      · simp only [accPos, List.map_cons, List.cons_append, putRow]
        rw [hput1, exc_ok_bind]
        exact hput2
      · intro i j hi hj
        rw [he2 i j hi hj]
        simp only [List.sum_cons]
        by_cases hcol1 : c ≤ j ∧ j < c + w
        · have hnot2 : ¬(c + w ≤ j ∧ j < c + w + ws'.sum) := by omega
          have hno2 : ¬(x ≤ i ∧ i < x + h ∧ c + w ≤ j ∧ j < c + w + ws'.sum) := by
            omega
          rw [if_neg hno2, he1 i j hi hj]
          by_cases hrow1 : x ≤ i ∧ i < x + h
          · have hyes : x ≤ i ∧ i < x + b.shape0 ∧ c ≤ j ∧ j < c + b.shape1 := by
              rw [hb0, hb1]
              omega
            have hyesU : x ≤ i ∧ i < x + h ∧ c ≤ j ∧ j < c + (w + ws'.sum) := by omega
            rw [if_pos hyes, if_pos hyesU]
            have hjc : j - c < w := by omega
            simp only [entryRow, hjc, if_true]
          · have hnob : ¬(x ≤ i ∧ i < x + b.shape0 ∧ c ≤ j ∧ j < c + b.shape1) := by
              rw [hb0]
              omega
            have hnoU : ¬(x ≤ i ∧ i < x + h ∧ c ≤ j ∧ j < c + (w + ws'.sum)) := by
              omega
            rw [if_neg hnob, if_neg hnoU]
        · by_cases hcol2 : c + w ≤ j ∧ j < c + w + ws'.sum
          · by_cases hrow1 : x ≤ i ∧ i < x + h
            · have hyes2 : x ≤ i ∧ i < x + h ∧ c + w ≤ j ∧ j < c + w + ws'.sum := by
                omega
              have hyesU : x ≤ i ∧ i < x + h ∧ c ≤ j ∧ j < c + (w + ws'.sum) := by
                omega
              rw [if_pos hyes2, if_pos hyesU]
              have hjge : ¬(j - c < w) := by omega
              simp only [entryRow, hjge, if_false]
              have harith : j - c - w = j - (c + w) := by omega
              rw [harith]
            · have hno2 : ¬(x ≤ i ∧ i < x + h ∧ c + w ≤ j ∧ j < c + w + ws'.sum) := by
                omega
              have hnoU : ¬(x ≤ i ∧ i < x + h ∧ c ≤ j ∧ j < c + (w + ws'.sum)) := by
                omega
              rw [if_neg hno2, if_neg hnoU, he1 i j hi hj]
              have hnob : ¬(x ≤ i ∧ i < x + b.shape0 ∧ c ≤ j ∧ j < c + b.shape1) := by
                rw [hb0]
                omega
              rw [if_neg hnob]
          · have hno2 : ¬(x ≤ i ∧ i < x + h ∧ c + w ≤ j ∧ j < c + w + ws'.sum) := by
              omega
            have hnoU : ¬(x ≤ i ∧ i < x + h ∧ c ≤ j ∧ j < c + (w + ws'.sum)) := by
              omega
            rw [if_neg hno2, if_neg hnoU, he1 i j hi hj]
            have hnob : ¬(x ≤ i ∧ i < x + b.shape0 ∧ c ≤ j ∧ j < c + b.shape1) := by
              rw [hb1]
              omega
            rw [if_neg hnob]

theorem putGrid_spec : ∀ (g : List (List Blk)), (∀ row ∈ g, ∀ b ∈ row, PutSpecP b) →
    ∀ (rsh csh : List Nat) (d : Dtype) (M : NpMat) (r c : Nat),
    validGrid g rsh csh d = true →
    M.rows.length = M.nr → rectM M.rows M.nc →
    r + rsh.sum ≤ M.nr → c + csh.sum ≤ M.nc →
    canCastSameKind d M.dtype = true →
    ∃ rows2, putGrid g (posProduct (accPos rsh r) (accPos csh c)) M =
        .ok ⟨M.dtype, M.nr, M.nc, rows2⟩ ∧
      rows2.length = M.nr ∧ rectM rows2 M.nc ∧
      ∀ i j, i < M.nr → j < M.nc →
        getE rows2 i j =
          if r ≤ i ∧ i < r + rsh.sum ∧ c ≤ j ∧ j < c + csh.sum
          then entryGrid g rsh csh (i - r) (j - c) else getE M.rows i j := by
  intro g
  induction g with
  | nil =>
    intro _ rsh csh d M r c hv hMl hMr hrs hcs hcast
    cases rsh with
    | cons hh hs => simp [validGrid] at hv
    | nil =>
      refine ⟨M.rows, by simp [accPos, posProduct, putGrid], hMl, hMr, ?_⟩
      intro i j hi hj
      have hno : ¬(r ≤ i ∧ i < r + ([] : List Nat).sum ∧ c ≤ j ∧ j < c + csh.sum) := by
        simp only [List.sum_nil]
        omega
      rw [if_neg hno]
  | cons row rest ih =>
    intro hIH rsh csh d M r c hv hMl hMr hrs hcs hcast
    cases rsh with
    | nil => simp [validGrid] at hv
    | cons hh hs =>
      rw [validGrid_cons_iff] at hv
      obtain ⟨hvr, hvrest⟩ := hv
      simp only [List.sum_cons] at hrs
      obtain ⟨rows1, hput1, hl1, hr1, he1⟩ :=
        putRow_spec row (fun b hb => hIH row (by simp) b hb) csh hh d M r c
          (posProduct (accPos hs (r + hh)) (accPos csh c))
          hvr hMl hMr (by omega) hcs hcast
      obtain ⟨rows2, hput2, hl2, hr2, he2⟩ :=
        ih (fun y hy b hb => hIH y (by simp [hy]) b hb) hs csh d
          ⟨M.dtype, M.nr, M.nc, rows1⟩ (r + hh) c hvrest hl1 hr1
          (by show r + hh + hs.sum ≤ M.nr; omega) hcs hcast
      refine ⟨rows2, ?_, hl2, hr2, ?_⟩
      · simp only [accPos, posProduct, putGrid]
        rw [hput1, exc_ok_bind]
        exact hput2
      · intro i j hi hj
        rw [he2 i j hi hj]
        simp only [List.sum_cons]
        by_cases hrow1 : r ≤ i ∧ i < r + hh
        · have hno2 : ¬(r + hh ≤ i ∧ i < r + hh + hs.sum ∧ c ≤ j ∧ j < c + csh.sum) := by
            omega
          rw [if_neg hno2, he1 i j hi hj]
          by_cases hcol : c ≤ j ∧ j < c + csh.sum
          · have hyes1 : r ≤ i ∧ i < r + hh ∧ c ≤ j ∧ j < c + csh.sum := by omega
            have hyesU : r ≤ i ∧ i < r + (hh + hs.sum) ∧ c ≤ j ∧ j < c + csh.sum := by
              omega
            rw [if_pos hyes1, if_pos hyesU]
            have hlt : i - r < hh := by omega
            simp only [entryGrid, hlt, if_true]
          · have hno1 : ¬(r ≤ i ∧ i < r + hh ∧ c ≤ j ∧ j < c + csh.sum) := by omega
            have hnoU : ¬(r ≤ i ∧ i < r + (hh + hs.sum) ∧ c ≤ j ∧ j < c + csh.sum) := by
              omega
            rw [if_neg hno1, if_neg hnoU]
        · by_cases hrow2 : r + hh ≤ i ∧ i < r + hh + hs.sum
          · by_cases hcol : c ≤ j ∧ j < c + csh.sum
            · have hyes2 : r + hh ≤ i ∧ i < r + hh + hs.sum ∧ c ≤ j ∧ j < c + csh.sum := by
                omega
              have hyesU : r ≤ i ∧ i < r + (hh + hs.sum) ∧ c ≤ j ∧ j < c + csh.sum := by
                omega
              rw [if_pos hyes2, if_pos hyesU]
              have hge : ¬(i - r < hh) := by omega
              simp only [entryGrid, hge, if_false]
              have harith : i - r - hh = i - (r + hh) := by omega
              rw [harith]
            · have hno2 : ¬(r + hh ≤ i ∧ i < r + hh + hs.sum ∧ c ≤ j ∧ j < c + csh.sum) := by
                omega
              have hnoU : ¬(r ≤ i ∧ i < r + (hh + hs.sum) ∧ c ≤ j ∧ j < c + csh.sum) := by
                omega
              rw [if_neg hno2, if_neg hnoU, he1 i j hi hj]
              have hno1 : ¬(r ≤ i ∧ i < r + hh ∧ c ≤ j ∧ j < c + csh.sum) := by omega
              rw [if_neg hno1]
          · have hno2 : ¬(r + hh ≤ i ∧ i < r + hh + hs.sum ∧ c ≤ j ∧ j < c + csh.sum) := by
              omega
            have hnoU : ¬(r ≤ i ∧ i < r + (hh + hs.sum) ∧ c ≤ j ∧ j < c + csh.sum) := by
              omega
            rw [if_neg hno2, if_neg hnoU, he1 i j hi hj]
            have hno1 : ¬(r ≤ i ∧ i < r + hh ∧ c ≤ j ∧ j < c + csh.sum) := by omega
            rw [if_neg hno1]

theorem putSpec_all : ∀ (n : Nat) (b : Blk), sizeOf b ≤ n → PutSpecP b := by
  intro n
  induction n with
  | zero =>
    intro b h
    exact absurd h (by have := sizeOf_blk_pos b; omega)
  | succ n ih =>
    intro b hsz M r c hv hMl hMr hrb hcb hcast
    cases b with
    | arr d sh rows =>
      rw [validBlk_arr_iff] at hv
      obtain ⟨hsh, hrect⟩ := hv
      have hr0 : (Blk.arr d sh rows).shape0 = rows.length := by
        simp [Blk.shape0, hsh]
      have hr1 : (Blk.arr d sh rows).shape1 = (rows.headD []).length := by
        simp [Blk.shape1, hsh]
      rw [hr0] at hrb
      rw [hr1] at hcb
      refine ⟨setRegion M.rows r c rows (rows.headD []).length, ?_, ?_, ?_, ?_⟩
      · simp only [putBlk, writeArr]
        rw [hsh]
        have e0 : (([rows.length, (rows.headD []).length] : List Nat).getD 0 0) =
            rows.length := rfl
        have e1 : (([rows.length, (rows.headD []).length] : List Nat).getD 1 0) =
            (rows.headD []).length := rfl
        rw [e0, e1]
        rw [if_pos ⟨hrb, hcb⟩]
        rw [if_pos ⟨rfl, rfl⟩]
        have hcast2 : canCastSameKind d M.dtype = true := hcast
        rw [if_pos hcast2]
      · rw [setRegion_length, hMl]
      · apply rectM_of_getD
        intro i hi
        rw [setRegion_length] at hi
        rw [setRegion_rowlen hi]
        exact rectM_getD hMr (by omega)
      · intro i j hi hj
        have hi' : i < M.rows.length := by omega
        have hj' : j < (M.rows.getD i []).length := by
          rw [rectM_getD hMr hi']
          exact hj
        rw [getE_setRegion hi' hj']
        rw [hr0, hr1]
        by_cases hin : r ≤ i ∧ i < r + rows.length ∧ c ≤ j ∧ j < c + (rows.headD []).length
        · rw [if_pos ⟨hin.1, hin.2.1, hin.2.2⟩, if_pos hin]
          simp [entryBlk, getE]
        · rw [if_neg (by tauto), if_neg hin]
    | blm g rsh csh nbR nbC s0 s1 d =>
      rw [validBlk_blm_iff] at hv
      obtain ⟨hvg, hgne, hcshne, hnbR, hnbC, hs0, hs1⟩ := hv
      have hIH : ∀ row ∈ g, ∀ b ∈ row, PutSpecP b := by
        intro row hrow b hb
        apply ih
        have := sizeOf_lt_of_mem_grid hb hrow rsh csh nbR nbC s0 s1 d
        omega
      simp only [Blk.shape0, Blk.shape1] at hrb hcb
      obtain ⟨rows2, hput, hl2, hr2, he2⟩ :=
        putGrid_spec g hIH rsh csh d M r c hvg hMl hMr (by omega) (by omega) hcast
      refine ⟨rows2, ?_, hl2, hr2, ?_⟩
      · simp only [putBlk]
        exact hput
      · intro i j hi hj
        rw [he2 i j hi hj]
        simp only [Blk.shape0, Blk.shape1, entryBlk]
        rw [hs0, hs1]

/-- Flattening a valid tree: the produced dense array has the tree's shape
and dtype and its in-range entries are the tree's entry function. -/
theorem fullMatrix_of_valid {g : List (List Blk)} {rsh csh : List Nat}
    {nbR nbC s0 s1 : Nat} {d : Dtype}
    (hv : validBlk (.blm g rsh csh nbR nbC s0 s1 d) = true) :
    ∃ rows, fullMatrixE (.blm g rsh csh nbR nbC s0 s1 d) = .ok ⟨d, s0, s1, rows⟩ ∧
      rows.length = s0 ∧ rectM rows s1 ∧
      ∀ i j, i < s0 → j < s1 →
        getE rows i j = entryBlk (.blm g rsh csh nbR nbC s0 s1 d) i j := by
  have hs0' : (Blk.blm g rsh csh nbR nbC s0 s1 d).shape0 = s0 := rfl
  have hs1' : (Blk.blm g rsh csh nbR nbC s0 s1 d).shape1 = s1 := rfl
  obtain ⟨rows2, hput, hl2, hr2, he2⟩ :=
    putSpec_all _ (Blk.blm g rsh csh nbR nbC s0 s1 d) le_rfl
      ⟨d, s0, s1, List.replicate s0 (List.replicate s1 0)⟩ 0 0 hv
      (by simp)
      (by intro x hx; rw [List.eq_of_mem_replicate hx]; simp)
      (by simp [hs0'])
      (by simp [hs1'])
      (canCast_self d)
  refine ⟨rows2, ?_, by simpa using hl2, by simpa using hr2, ?_⟩
  · simp only [fullMatrixE]
    exact hput
  · intro i j hi hj
    have := he2 i j (by simpa using hi) (by simpa using hj)
    rw [this]
    rw [if_pos (by simp only [hs0', hs1']; omega)]
    simp

/-! ### Claim C7: matvec equals the dense product of the flattening -/

/-- C7 counterexample: on the valid complex tree `sampleCplx2` and a real
vector of conforming length, the flattening exists (so the dense product
`flatten(B) @ v` is well defined), yet `matvec` raises a TypeError instead
of returning that product — the claim's unconditional equality fails for
dtype-mismatched inputs. -/
theorem C7_matvec_complex_real_counterexample :
    validBlk sampleCplx2 = true ∧
    (fullMatrixE sampleCplx2).isOk = true ∧
    matvecE sampleCplx2 ⟨.float, [3]⟩ = .error .typeError := by
  exact ⟨by decide, rfl, rfl⟩

/-- C7 amended: for every valid tree and every conforming dense vector whose
element kind the matrix's element kind casts into (the regime in which
matvec does not fail on the in-place accumulation), `B.matvec(v)` equals the
conventional dense matrix-vector product `flatten(B) @ v` — same element
type, same length, same entries — the output being accumulated block-row by
block-row into the row-group-aligned output segments. -/
theorem C7_matvec_equals_dense_product (g : List (List Blk)) (rsh csh : List Nat)
    (nbR nbC s0 s1 : Nat) (d : Dtype) (v : NpVec)
    (hv : validBlk (.blm g rsh csh nbR nbC s0 s1 d) = true)
    (hk : Dtype.kind d ≤ Dtype.kind v.dtype)
    (hlen : v.data.length = s1) :
    ∃ F, fullMatrixE (.blm g rsh csh nbR nbC s0 s1 d) = .ok F ∧
      matvecE (.blm g rsh csh nbR nbC s0 s1 d) v = .ok (denseMatvec F v) := by
  obtain ⟨rows, hfull, hrl, hrect, hent⟩ := fullMatrix_of_valid hv
  obtain ⟨data, hmv, hdlen, hde⟩ :=
    mvSpec_all _ (Blk.blm g rsh csh nbR nbC s0 s1 d) le_rfl v hv hk (by simpa using hlen)
  refine ⟨⟨d, s0, s1, rows⟩, hfull, ?_⟩
  rw [hmv]
  have hdt : promote d v.dtype = v.dtype := promote_of_kind_le hk
  have hdata : data = rows.map (fun r => dotL r v.data) := by
    apply eqOfGetD
    · rw [hdlen, List.length_map, hrl]
      rfl
    · intro i hi
      have hi0 : i < s0 := by
        rw [hdlen] at hi
        exact hi
      have hi1 : i < rows.length := by omega
      have hmap : (rows.map (fun r => dotL r v.data)).getD i 0 =
          dotL (rows.getD i []) v.data := by
        rw [List.getD_eq_getElem _ _ (by simpa using hi1),
            List.getD_eq_getElem _ _ hi1, List.getElem_map]
      rw [hmap]
      have hrowlen : (rows.getD i []).length = v.data.length := by
        rw [rectM_getD hrect hi1, hlen]
      rw [dotL_eq_rsum _ _ hrowlen, hrowlen, hlen]
      rw [hde i (by simpa using hi0)]
      have hsh1 : (Blk.blm g rsh csh nbR nbC s0 s1 d).shape1 = s1 := rfl
      rw [hsh1]
      apply rsum_congr
      intro j hj
      have := hent i j hi0 hj
      simp only [getE] at this
      rw [this]
  rw [hdata]
  simp only [denseMatvec, hdt]

/-- C7 witness: the theorem applied to the specification's concrete 2 × 2
scenario and a float vector. -/
theorem C7_witness :
    ∃ F, fullMatrixE sampleSquare = .ok F ∧
      matvecE sampleSquare ⟨.float, [1, 0, 0, 0]⟩ =
        .ok (denseMatvec F ⟨.float, [1, 0, 0, 0]⟩) :=
  C7_matvec_equals_dense_product [[leafA, leafB], [leafC, leafD]] [2, 2] [2, 2]
    2 2 4 4 .float ⟨.float, [1, 0, 0, 0]⟩ (by decide) (by decide) (by decide)

/-! ### Matmat characterization (depth-1 trees) -/

theorem arr_dims {d : Dtype} {sh : List Nat} {rows : List (List Int)}
    (hv : validBlk (.arr d sh rows) = true) :
    rows.length = (Blk.arr d sh rows).shape0 ∧
    rectM rows ((Blk.arr d sh rows).shape1) ∧
    (rows.headD []).length = (Blk.arr d sh rows).shape1 := by
  rw [validBlk_arr_iff] at hv
  obtain ⟨hsh, hrect⟩ := hv
  refine ⟨?_, ?_, ?_⟩
  · simp [Blk.shape0, hsh]
  · intro r hr
    rw [hrect r hr]
    simp [Blk.shape1, hsh]
  · simp [Blk.shape1, hsh]

theorem npMatmulRows_length (A B : List (List Int)) :
    (npMatmulRows A B).length = A.length := by
  simp [npMatmulRows]

theorem npMatmulRows_rect (A B : List (List Int)) :
    rectM (npMatmulRows A B) ((B.headD []).length) := by
  intro r hr
  obtain ⟨r0, _, rfl⟩ := List.mem_map.mp hr
  simp

theorem getE_npMatmulRows {A B : List (List Int)} {i j : Nat}
    (hi : i < A.length) (hj : j < (B.headD []).length) :
    getE (npMatmulRows A B) i j =
      rsum B.length (fun k => (A.getD i []).getD k 0 * (B.getD k []).getD j 0) := by
  unfold getE npMatmulRows
  have houter : (A.map (fun ar => (List.range ((B.headD []).length)).map
      (fun j => rsum B.length (fun k => ar.getD k 0 * (B.getD k []).getD j 0)))).getD i [] =
      (List.range ((B.headD []).length)).map
        (fun j => rsum B.length (fun k => (A.getD i []).getD k 0 * (B.getD k []).getD j 0)) := by
    rw [List.getD_eq_getElem _ _ (by simpa using hi), List.getD_eq_getElem _ _ hi,
        List.getElem_map]
  rw [houter, getD_range_map hj]

theorem promote_self (a : Dtype) : promote a a = a := by
  simp [promote]

/-- Products-and-sum characterization for one (row, column) pair of dense
slots: the terms are the dense products and Python's sum folds them into one
dense array of the row height by the column width, adding onto any running
dense accumulator of those dimensions. -/
theorem mmAcc_spec : ∀ (row col : List Blk) (ws : List Nat) (h w : Nat)
    (d1 d2 : Dtype) (A : List (List Int)),
    validRow row h ws d1 = true → leafRow row = true →
    validCol col ws w d2 = true → leafRow col = true →
    A.length = h → rectM A w →
    ∃ terms S, mmEntries row col = .ok terms ∧
      pySum terms (.acc (promote d1 d2) A) = .ok (promote d1 d2, S) ∧
      S.length = h ∧ rectM S w ∧
      ∀ a b, a < h → b < w →
        getE S a b = getE A a b +
          rsum ws.sum (fun t => entryRow row ws a t * entryCol col ws t b) := by
  intro row
  induction row with
  | nil =>
    intro col ws h w d1 d2 A hvr _ hvc _ hAl hAr
    cases ws with
    | cons w1 ws' => simp [validRow] at hvr
    | nil =>
      cases col with
      | cons c0 cs => simp [validCol] at hvc
      | nil =>
        refine ⟨[], A, by simp [mmEntries], by simp [pySum], hAl, hAr, ?_⟩
        intro a b _ _
        simp [rsum]
  | cons b0 bs ih =>
    intro col ws h w d1 d2 A hvr hlr hvc hlc hAl hAr
    cases ws with
    | nil => simp [validRow] at hvr
    | cons w1 ws' =>
      cases col with
      | nil => simp [validCol] at hvc
      | cons c0 cs =>
        rw [validRow_cons_iff] at hvr
        obtain ⟨hvb, hb0, hb1, hbd, hvbs⟩ := hvr
        have hvc2 : validBlk c0 = true ∧ c0.shape0 = w1 ∧ c0.shape1 = w ∧
            c0.dtypeOf = d2 ∧ validCol cs ws' w d2 = true := by
          simpa [validCol, Bool.and_eq_true, decide_eq_true_eq, and_assoc] using hvc
        obtain ⟨hvc0, hc00, hc01, hc0d, hvcs⟩ := hvc2
        obtain ⟨da1, sha1, ra1, rfl⟩ : ∃ da sha ra, b0 = Blk.arr da sha ra := by
          cases b0 with
          | arr da sha ra => exact ⟨da, sha, ra, rfl⟩
          | blm _ _ _ _ _ _ _ _ => simp [leafRow] at hlr
        obtain ⟨da2, sha2, ra2, rfl⟩ : ∃ da sha ra, c0 = Blk.arr da sha ra := by
          cases c0 with
          | arr da sha ra => exact ⟨da, sha, ra, rfl⟩
          | blm _ _ _ _ _ _ _ _ => simp [leafRow] at hlc
        have hda1 : d1 = da1 := hbd.symm
        have hda2 : d2 = da2 := hc0d.symm
        subst hda1
        subst hda2
        obtain ⟨hl1, hrect1, hh1⟩ := arr_dims hvb
        obtain ⟨hl2, hrect2, hh2⟩ := arr_dims hvc0
        have hprod : blkMatmul (.arr d1 sha1 ra1) (.arr d2 sha2 ra2) =
            .ok (.sArr (promote d1 d2) (npMatmulRows ra1 ra2)) := by
          simp only [blkMatmul]
          rw [if_pos]
          show (Blk.arr d1 sha1 ra1).shape1 = (Blk.arr d2 sha2 ra2).shape0
          rw [hb1, hc00]
        have hPl : (npMatmulRows ra1 ra2).length = h := by
          rw [npMatmulRows_length, hl1, hb0]
        have hPr : rectM (npMatmulRows ra1 ra2) w := by
          have := npMatmulRows_rect ra1 ra2
          rw [hh2, hc01] at this
          exact this
        have hstep : pyAddStep (.acc (promote d1 d2) A)
            (.sArr (promote d1 d2) (npMatmulRows ra1 ra2)) =
            .ok (.acc (promote d1 d2) (List.zipWith (fun a b => List.zipWith (· + ·) a b)
              A (npMatmulRows ra1 ra2))) := by
          simp only [pyAddStep]
          rw [if_pos]
          · rw [promote_self]
          · constructor
            · rw [hAl, hPl]
            · cases A with
              | nil =>
                cases hA2 : npMatmulRows ra1 ra2 with
                | nil => simp
                | cons p ps =>
                  exfalso
                  rw [hA2] at hPl
                  simp at hAl hPl
                  omega
              | cons a0 as =>
                cases hA2 : npMatmulRows ra1 ra2 with
                | nil =>
                  exfalso
                  rw [hA2] at hPl
                  simp at hAl hPl
                  omega
                | cons p0 ps =>
                  simp only [List.headD_cons]
                  rw [hAr a0 (by simp), hPr p0 (by rw [hA2]; simp)]
        have hZl : (List.zipWith (fun a b => List.zipWith (· + ·) a b)
            A (npMatmulRows ra1 ra2)).length = h := by
          rw [List.length_zipWith, hAl, hPl, Nat.min_self]
        have hZr : rectM (List.zipWith (fun a b => List.zipWith (· + ·) a b)
            A (npMatmulRows ra1 ra2)) w :=
          zipWith_rows_rect A (npMatmulRows ra1 ra2) _ w hAr hPr
        have hlr2 : leafRow bs = true := by
          simp only [leafRow, List.all_cons, Bool.and_eq_true] at hlr
          exact hlr.2
        have hlc2 : leafRow cs = true := by
          simp only [leafRow, List.all_cons, Bool.and_eq_true] at hlc
          exact hlc.2
        obtain ⟨terms', S, hterms, hsum, hSl, hSr, hSe⟩ :=
          ih cs ws' h w d1 d2
            (List.zipWith (fun a b => List.zipWith (· + ·) a b) A (npMatmulRows ra1 ra2))
            hvbs hlr2 hvcs hlc2 hZl hZr
        refine ⟨.sArr (promote d1 d2) (npMatmulRows ra1 ra2) :: terms', S, ?_, ?_,
            hSl, hSr, ?_⟩
        · simp only [mmEntries]
          rw [hprod, exc_ok_bind, hterms, exc_ok_bind]
        · simp only [pySum]
          rw [hstep, exc_ok_bind]
          exact hsum
        · intro a b ha hb
          rw [hSe a b ha hb]
          have hzw : getE (List.zipWith (fun a b => List.zipWith (· + ·) a b)
              A (npMatmulRows ra1 ra2)) a b =
              getE A a b + getE (npMatmulRows ra1 ra2) a b := by
            unfold getE
            rw [getD_zipWith_rows (by omega) (by omega)]
            rw [getD_zipWith_int (by rw [rectM_getD hAr (by omega)]; exact hb)
                (by rw [rectM_getD hPr (by omega)]; exact hb)]
          rw [hzw]
          have hP : getE (npMatmulRows ra1 ra2) a b =
              rsum w1 (fun t => entryBlk (.arr d1 sha1 ra1) a t *
                entryBlk (.arr d2 sha2 ra2) t b) := by
            rw [getE_npMatmulRows (by omega) (by rw [hh2, hc01]; exact hb)]
            have hlen2 : ra2.length = w1 := by rw [hl2, hc00]
            rw [hlen2]
            apply rsum_congr
            intro t ht
            simp [entryBlk, getE]
          rw [hP]
          simp only [List.sum_cons]
          rw [rsum_add w1 ws'.sum]
          have hsp1 : rsum w1 (fun t => entryRow (Blk.arr d1 sha1 ra1 :: bs) (w1 :: ws') a t *
              entryCol (Blk.arr d2 sha2 ra2 :: cs) (w1 :: ws') t b) =
              rsum w1 (fun t => entryBlk (.arr d1 sha1 ra1) a t *
                entryBlk (.arr d2 sha2 ra2) t b) := by
            apply rsum_congr
            intro t ht
            simp only [entryRow, entryCol, ht, if_true]
          have hsp2 : rsum ws'.sum (fun t =>
              entryRow (Blk.arr d1 sha1 ra1 :: bs) (w1 :: ws') a (w1 + t) *
              entryCol (Blk.arr d2 sha2 ra2 :: cs) (w1 :: ws') (w1 + t) b) =
              rsum ws'.sum (fun t => entryRow bs ws' a t * entryCol cs ws' t b) := by
            apply rsum_congr
            intro t ht
            have hno : ¬(w1 + t < w1) := by omega
            simp only [entryRow, entryCol, hno, if_false]
            have he : w1 + t - w1 = t := by omega
            rw [he]
          rw [hsp1, hsp2]
          ring

/-- One cell of `matmat`'s summation: `sum(own_block @ other_block for ...)`
over a dense block-row against a dense block-column, starting from Python's
integer `0`, succeeds with the promoted dtype and the accumulated dense
products. -/
theorem mmCell_spec (row col : List Blk) (w1 : Nat) (ws' : List Nat) (h w : Nat)
    (d1 d2 : Dtype)
    (hvr : validRow row h (w1 :: ws') d1 = true) (hlr : leafRow row = true)
    (hvc : validCol col (w1 :: ws') w d2 = true) (hlc : leafRow col = true) :
    ∃ terms S, mmEntries row col = .ok terms ∧
      pySum terms .int0 = .ok (promote d1 d2, S) ∧
      S.length = h ∧ rectM S w ∧
      ∀ a b, a < h → b < w →
        getE S a b = rsum (w1 :: ws').sum
          (fun t => entryRow row (w1 :: ws') a t * entryCol col (w1 :: ws') t b) := by
  cases row with
  | nil => simp [validRow] at hvr
  | cons b0 bs =>
    cases col with
    | nil => simp [validCol] at hvc
    | cons c0 cs =>
      rw [validRow_cons_iff] at hvr
      obtain ⟨hvb, hb0, hb1, hbd, hvbs⟩ := hvr
      have hvc2 : validBlk c0 = true ∧ c0.shape0 = w1 ∧ c0.shape1 = w ∧
          c0.dtypeOf = d2 ∧ validCol cs ws' w d2 = true := by
        simpa [validCol, Bool.and_eq_true, decide_eq_true_eq, and_assoc] using hvc
      obtain ⟨hvc0, hc00, hc01, hc0d, hvcs⟩ := hvc2
      obtain ⟨da1, sha1, ra1, rfl⟩ : ∃ da sha ra, b0 = Blk.arr da sha ra := by
        cases b0 with
        | arr da sha ra => exact ⟨da, sha, ra, rfl⟩
        | blm _ _ _ _ _ _ _ _ => simp [leafRow] at hlr
      obtain ⟨da2, sha2, ra2, rfl⟩ : ∃ da sha ra, c0 = Blk.arr da sha ra := by
        cases c0 with
        | arr da sha ra => exact ⟨da, sha, ra, rfl⟩
        | blm _ _ _ _ _ _ _ _ => simp [leafRow] at hlc
      have hda1 : d1 = da1 := hbd.symm
      have hda2 : d2 = da2 := hc0d.symm
      subst hda1
      subst hda2
      obtain ⟨hl1, hrect1, hh1⟩ := arr_dims hvb
      obtain ⟨hl2, hrect2, hh2⟩ := arr_dims hvc0
      have hprod : blkMatmul (.arr d1 sha1 ra1) (.arr d2 sha2 ra2) =
          .ok (.sArr (promote d1 d2) (npMatmulRows ra1 ra2)) := by
        simp only [blkMatmul]
        rw [if_pos]
        show (Blk.arr d1 sha1 ra1).shape1 = (Blk.arr d2 sha2 ra2).shape0
        rw [hb1, hc00]
      have hPl : (npMatmulRows ra1 ra2).length = h := by
        rw [npMatmulRows_length, hl1, hb0]
      have hPr : rectM (npMatmulRows ra1 ra2) w := by
        have := npMatmulRows_rect ra1 ra2
        rw [hh2, hc01] at this
        exact this
      have hlr2 : leafRow bs = true := by
        simp only [leafRow, List.all_cons, Bool.and_eq_true] at hlr
        exact hlr.2
      have hlc2 : leafRow cs = true := by
        simp only [leafRow, List.all_cons, Bool.and_eq_true] at hlc
        exact hlc.2
      obtain ⟨terms', S, hterms, hsum, hSl, hSr, hSe⟩ :=
        mmAcc_spec bs cs ws' h w d1 d2 (npMatmulRows ra1 ra2)
          hvbs hlr2 hvcs hlc2 hPl hPr
      refine ⟨.sArr (promote d1 d2) (npMatmulRows ra1 ra2) :: terms', S, ?_, ?_,
          hSl, hSr, ?_⟩
      · simp only [mmEntries]
        rw [hprod, exc_ok_bind, hterms, exc_ok_bind]
      · simp only [pySum, pyAddStep]
        rw [exc_ok_bind]
        exact hsum
      · intro a b ha hb
        rw [hSe a b ha hb]
        have hP : getE (npMatmulRows ra1 ra2) a b =
            rsum w1 (fun t => entryBlk (.arr d1 sha1 ra1) a t *
              entryBlk (.arr d2 sha2 ra2) t b) := by
          rw [getE_npMatmulRows (by omega) (by rw [hh2, hc01]; exact hb)]
          have hlen2 : ra2.length = w1 := by rw [hl2, hc00]
          rw [hlen2]
          apply rsum_congr
          intro t ht
          simp [entryBlk, getE]
        rw [hP]
        simp only [List.sum_cons]
        rw [rsum_add w1 ws'.sum]
        have hsp1 : rsum w1 (fun t => entryRow (Blk.arr d1 sha1 ra1 :: bs) (w1 :: ws') a t *
            entryCol (Blk.arr d2 sha2 ra2 :: cs) (w1 :: ws') t b) =
            rsum w1 (fun t => entryBlk (.arr d1 sha1 ra1) a t *
              entryBlk (.arr d2 sha2 ra2) t b) := by
          apply rsum_congr
          intro t ht
          simp only [entryRow, entryCol, ht, if_true]
        have hsp2 : rsum ws'.sum (fun t =>
            entryRow (Blk.arr d1 sha1 ra1 :: bs) (w1 :: ws') a (w1 + t) *
            entryCol (Blk.arr d2 sha2 ra2 :: cs) (w1 :: ws') (w1 + t) b) =
            rsum ws'.sum (fun t => entryRow bs ws' a t * entryCol cs ws' t b) := by
          apply rsum_congr
          intro t ht
          have hno : ¬(w1 + t < w1) := by omega
          simp only [entryRow, entryCol, hno, if_false]
          have he : w1 + t - w1 = t := by omega
          rw [he]
        rw [hsp1, hsp2]

/-- One result line of `matmat`: mapping the summed-products cell over the
other operand's block-columns yields a valid dense block-row of the promoted
dtype whose entry function is the row-of-cells sum. -/
theorem mmLine_spec : ∀ (ocols : List (List Blk)) (cws : List Nat) (row : List Blk)
    (w1 : Nat) (ws' : List Nat) (h : Nat) (d1 d2 : Dtype),
    validRow row h (w1 :: ws') d1 = true → leafRow row = true →
    validCols ocols (w1 :: ws') cws d2 = true → ocols.all leafRow = true →
    0 < h →
    ∃ line, mmLine ocols row = .ok line ∧
      validRow line h cws (promote d1 d2) = true ∧
      ∀ a j, a < h → j < cws.sum →
        entryRow line cws a j = rsum (w1 :: ws').sum
          (fun t => entryRow row (w1 :: ws') a t *
            entryCols ocols (w1 :: ws') cws t j) := by
  intro ocols
  induction ocols with
  | nil =>
    intro cws row w1 ws' h d1 d2 hvr hlr hvc hlo hh
    have hcws : cws = [] := by
      cases cws with
      | nil => rfl
      | cons c cs => simp [validCols] at hvc
    subst hcws
    refine ⟨[], by simp [mmLine], by simp [validRow], ?_⟩
    intro a j _ hj
    simp at hj
  | cons ocol ocols ih =>
    intro cws row w1 ws' h d1 d2 hvr hlr hvc hlo hh
    cases cws with
    | nil => simp [validCols] at hvc
    | cons cw cws' =>
      have hvc2 : validCol ocol (w1 :: ws') cw d2 = true ∧
          validCols ocols (w1 :: ws') cws' d2 = true := by
        simpa [validCols, Bool.and_eq_true] using hvc
      obtain ⟨hvc0, hvcs⟩ := hvc2
      have hlo2 : leafRow ocol = true ∧ ocols.all leafRow = true := by
        simpa using hlo
      obtain ⟨hlc0, hlos⟩ := hlo2
      obtain ⟨terms, S, hterms, hsum, hSl, hSr, hSe⟩ :=
        mmCell_spec row ocol w1 ws' h cw d1 d2 hvr hlr hvc0 hlc0
      obtain ⟨line, hline, hvl, hle⟩ :=
        ih cws' row w1 ws' h d1 d2 hvr hlr hvcs hlos hh
      have hS0 : (S.headD []).length = cw := by
        cases S with
        | nil => simp at hSl; omega
        | cons s0 ss => exact hSr s0 (by simp)
      refine ⟨Blk.arr (promote d1 d2) [S.length, (S.headD []).length] S :: line,
          ?_, ?_, ?_⟩
      · simp only [mmLine]
        rw [hterms, exc_ok_bind, hsum, exc_ok_bind, hline, exc_ok_bind]
      · rw [validRow_cons_iff]
        refine ⟨?_, ?_, ?_, rfl, hvl⟩
        · rw [validBlk_arr_iff]
          exact ⟨rfl, fun r hr => (hSr r hr).trans hS0.symm⟩
        · exact hSl
        · exact hS0
      · intro a j ha hj
        by_cases hjc : j < cw
        · simp only [entryRow, hjc, if_true]
          have hEB : entryBlk
              (Blk.arr (promote d1 d2) [S.length, (S.headD []).length] S) a j =
              getE S a j := rfl
          rw [hEB, hSe a j ha hjc]
          apply rsum_congr
          intro t _
          simp only [entryCols, hjc, if_true]
        · have hsc : (cw :: cws').sum = cw + cws'.sum := by simp
          simp only [entryRow, hjc, if_false]
          rw [hle a (j - cw) ha (by omega)]
          apply rsum_congr
          intro t _
          simp only [entryCols, hjc, if_false]

/-- The block × block body of `matmat` over a leaf grid and a list of leaf
block-columns: the result grid is valid against the own row partition, the
column partition of the columns, and the promoted dtype, and its entry
function is the block-compatible product sum. -/
theorem matmatBB_spec : ∀ (g1 : List (List Blk)) (rsh1 : List Nat)
    (ocols : List (List Blk)) (cws : List Nat) (w1 : Nat) (ws' : List Nat)
    (d1 d2 : Dtype),
    validGrid g1 rsh1 (w1 :: ws') d1 = true → g1.all leafRow = true →
    validCols ocols (w1 :: ws') cws d2 = true → ocols.all leafRow = true →
    (∀ x ∈ rsh1, 0 < x) →
    ∃ gg, matmatBB g1 ocols = .ok gg ∧
      validGrid gg rsh1 cws (promote d1 d2) = true ∧
      ∀ i j, i < rsh1.sum → j < cws.sum →
        entryGrid gg rsh1 cws i j = rsum (w1 :: ws').sum
          (fun t => entryGrid g1 rsh1 (w1 :: ws') i t *
            entryCols ocols (w1 :: ws') cws t j) := by
  intro g1
  induction g1 with
  | nil =>
    intro rsh1 ocols cws w1 ws' d1 d2 hvg hlg hvc hlo hpos
    have hr : rsh1 = [] := by
      cases rsh1 with
      | nil => rfl
      | cons r rs => simp [validGrid] at hvg
    subst hr
    refine ⟨[], by simp [matmatBB], by simp [validGrid], ?_⟩
    intro i j hi _
    rw [List.sum_nil] at hi
    omega
  | cons row rest ih =>
    intro rsh1 ocols cws w1 ws' d1 d2 hvg hlg hvc hlo hpos
    cases rsh1 with
    | nil => simp [validGrid] at hvg
    | cons h hs =>
      rw [validGrid_cons_iff] at hvg
      obtain ⟨hvr, hvrest⟩ := hvg
      have hlg2 : leafRow row = true ∧ rest.all leafRow = true := by simpa using hlg
      obtain ⟨hlr, hlrest⟩ := hlg2
      have hh : 0 < h := hpos h (by simp)
      obtain ⟨line, hline, hvl, hle⟩ :=
        mmLine_spec ocols cws row w1 ws' h d1 d2 hvr hlr hvc hlo hh
      obtain ⟨gg, hgg, hvgg, hge⟩ :=
        ih hs ocols cws w1 ws' d1 d2 hvrest hlrest hvc hlo
          (fun x hx => hpos x (by simp [hx]))
      refine ⟨line :: gg, ?_, ?_, ?_⟩
      · simp only [matmatBB]
        rw [hline, exc_ok_bind, hgg, exc_ok_bind]
      · rw [validGrid_cons_iff]
        exact ⟨hvl, hvgg⟩
      · intro i j hi hj
        by_cases hih : i < h
        · simp only [entryGrid, hih, if_true]
          rw [hle i j hih hj]
        · have hsc : (h :: hs).sum = h + hs.sum := by simp
          simp only [entryGrid, hih, if_false]
          rw [hge (i - h) j (by omega) hj]

/-- Unfolding of `validCol` on a cons cell. -/
theorem validCol_cons_iff {b : Blk} {bs : List Blk} {h : Nat} {hs : List Nat}
    {w : Nat} {d : Dtype} :
    validCol (b :: bs) (h :: hs) w d = true ↔
      validBlk b = true ∧ b.shape0 = h ∧ b.shape1 = w ∧ b.dtypeOf = d ∧
      validCol bs hs w d = true := by
  simp [validCol, Bool.and_eq_true, decide_eq_true_eq, and_assoc]

/-- A position of a valid block-row is a valid block of the row's height, the
position's width and the row's dtype. -/
theorem validRow_getD : ∀ (row : List Blk) (h : Nat) (ws : List Nat) (d : Dtype)
    (j : Nat), validRow row h ws d = true → j < ws.length →
    validBlk (row.getD j default) = true ∧ (row.getD j default).shape0 = h ∧
    (row.getD j default).shape1 = ws.getD j 0 ∧ (row.getD j default).dtypeOf = d := by
  intro row
  induction row with
  | nil =>
    intro h ws d j hv hj
    cases ws with
    | nil => simp at hj
    | cons w ws' => simp [validRow] at hv
  | cons b bs ih =>
    intro h ws d j hv hj
    cases ws with
    | nil => simp at hj
    | cons w ws' =>
      rw [validRow_cons_iff] at hv
      obtain ⟨hvb, h0, h1, hd, hrest⟩ := hv
      cases j with
      | zero => exact ⟨hvb, h0, h1, hd⟩
      | succ j' => exact ih h ws' d j' hrest (by simpa using hj)

/-- The `j`-th column of a valid grid is a valid block-column of the `j`-th
width. -/
theorem colJ_valid : ∀ (g : List (List Blk)) (rsh : List Nat) (csh : List Nat)
    (d : Dtype) (j : Nat),
    validGrid g rsh csh d = true → j < csh.length →
    validCol (g.map (fun row => row.getD j default)) rsh (csh.getD j 0) d = true := by
  intro g
  induction g with
  | nil =>
    intro rsh csh d j hv hj
    have hr : rsh = [] := by
      cases rsh with
      | nil => rfl
      | cons r rs => simp [validGrid] at hv
    subst hr
    simp [validCol]
  | cons row rest ih =>
    intro rsh csh d j hv hj
    cases rsh with
    | nil => simp [validGrid] at hv
    | cons h hs =>
      rw [validGrid_cons_iff] at hv
      obtain ⟨hvr, hvrest⟩ := hv
      obtain ⟨hvb, h0, h1, hd⟩ := validRow_getD row h csh d j hvr hj
      have hrest := ih hs csh d j hvrest hj
      simp only [List.map_cons]
      exact validCol_cons_iff.mpr ⟨hvb, h0, h1, hd, hrest⟩

/-- A list of block-columns is valid when every position is a valid
block-column of the matching width. -/
theorem validCols_pointwise : ∀ (cws : List Nat) (cols : List (List Blk))
    (ws : List Nat) (d : Dtype),
    cols.length = cws.length →
    (∀ j, j < cws.length → validCol (cols.getD j []) ws (cws.getD j 0) d = true) →
    validCols cols ws cws d = true := by
  intro cws
  induction cws with
  | nil =>
    intro cols ws d hlen _
    have hc : cols = [] := List.eq_nil_of_length_eq_zero (by simpa using hlen)
    subst hc
    simp [validCols]
  | cons cw cws' ih =>
    intro cols ws d hlen hpt
    cases cols with
    | nil => simp at hlen
    | cons c cs =>
      have h0 : validCol c ws cw d = true := hpt 0 (by simp)
      have hrest : validCols cs ws cws' d = true := ih cs ws d (by simpa using hlen)
        (fun j hj => hpt (j + 1) (by simpa using hj))
      simp [validCols, h0, hrest]

/-- The transposed block iterator of a nonempty valid grid is a valid list of
block-columns against the same partitions. -/
theorem gridT_validCols {g : List (List Blk)} {rsh csh : List Nat} {d : Dtype}
    (hv : validGrid g rsh csh d = true) (hg : g ≠ []) :
    validCols (gridT g) rsh csh d = true := by
  cases g with
  | nil => exact absurd rfl hg
  | cons row0 rest =>
    cases rsh with
    | nil => simp [validGrid] at hv
    | cons h hs =>
      have hrow0 : validRow row0 h csh d = true := (validGrid_cons_iff.mp hv).1
      have hlen0 : row0.length = csh.length := validRow_length_eq hrow0
      have hT : gridT (row0 :: rest) = (List.range csh.length).map
          (fun j => (row0 :: rest).map (fun row => row.getD j default)) := by
        simp [gridT, hlen0]
      rw [hT]
      apply validCols_pointwise
      · simp
      · intro j hj
        rw [getD_range_map hj]
        exact colJ_valid (row0 :: rest) (h :: hs) csh d j hv hj

/-- Transposing a grid of dense leaves gives columns of dense leaves. -/
theorem gridT_leaf {g : List (List Blk)} (hl : g.all leafRow = true) :
    (gridT g).all leafRow = true := by
  rw [List.all_eq_true]
  intro col hcol
  simp only [gridT, List.mem_map, List.mem_range] at hcol
  obtain ⟨j, hj, rfl⟩ := hcol
  simp only [leafRow, List.all_eq_true]
  intro b hb
  simp only [List.mem_map] at hb
  obtain ⟨row, hrow, rfl⟩ := hb
  by_cases hlt : j < row.length
  · have hmem : row.getD j default ∈ row := by
      rw [List.getD_eq_getElem _ _ hlt]
      exact List.getElem_mem _
    have hlrow : leafRow row = true := List.all_eq_true.mp hl row hrow
    have hall : ∀ x ∈ row, (match x with
        | Blk.arr _ _ _ => true
        | Blk.blm _ _ _ _ _ _ _ _ => false) = true := by
      simpa [leafRow] using hlrow
    exact hall _ hmem
  · rw [List.getD_eq_default _ _ (by omega)]

/-- Every coordinate below the total width decomposes into a group index and
a local offset within that group. -/
theorem locate_sum : ∀ (ws : List Nat) (q : Nat), q < ws.sum →
    ∃ J qr, J < ws.length ∧ qr < ws.getD J 0 ∧ q = (ws.take J).sum + qr := by
  intro ws
  induction ws with
  | nil =>
    intro q hq
    rw [List.sum_nil] at hq
    omega
  | cons w ws' ih =>
    intro q hq
    by_cases hqw : q < w
    · exact ⟨0, q, by simp, hqw, by simp⟩
    · have hsc : (w :: ws').sum = w + ws'.sum := by simp
      obtain ⟨J, qr, hJ, hqr, hdec⟩ := ih (q - w) (by omega)
      refine ⟨J + 1, qr, by simpa using hJ, hqr, ?_⟩
      simp only [List.take_succ_cons, List.sum_cons]
      omega

/-- `entryCols` at a decomposed coordinate is the located column's entry. -/
theorem entryCols_locate : ∀ (cws : List Nat) (cols : List (List Blk))
    (ws : List Nat) (J i qr : Nat),
    J < cws.length → cols.length = cws.length → qr < cws.getD J 0 →
    entryCols cols ws cws i ((cws.take J).sum + qr) =
      entryCol (cols.getD J []) ws i qr := by
  intro cws
  induction cws with
  | nil =>
    intro cols ws J i qr hJ _ _
    simp at hJ
  | cons cw cws' ih =>
    intro cols ws J i qr hJ hlen hqr
    cases cols with
    | nil => simp at hlen
    | cons c cs =>
      cases J with
      | zero =>
        simp only [List.take_zero, List.sum_nil, Nat.zero_add]
        have hq : qr < cw := hqr
        simp only [entryCols, hq, if_true, List.getD_cons_zero]
      | succ J' =>
        simp only [List.take_succ_cons, List.sum_cons]
        have hno : ¬(cw + (cws'.take J').sum + qr < cw) := by omega
        simp only [entryCols, hno, if_false]
        have harg : cw + (cws'.take J').sum + qr - cw = (cws'.take J').sum + qr := by
          omega
        rw [harg]
        exact ih cs ws J' i qr (by simpa using hJ) (by simpa using hlen) hqr

/-- `entryRow` at a decomposed coordinate is the located slot's entry. -/
theorem entryRow_locate : ∀ (ws : List Nat) (row : List Blk) (J i qr : Nat),
    J < ws.length → row.length = ws.length → qr < ws.getD J 0 →
    entryRow row ws i ((ws.take J).sum + qr) =
      entryBlk (row.getD J default) i qr := by
  intro ws
  induction ws with
  | nil =>
    intro row J i qr hJ _ _
    simp at hJ
  | cons w ws' ih =>
    intro row J i qr hJ hlen hqr
    cases row with
    | nil => simp at hlen
    | cons b bs =>
      cases J with
      | zero =>
        simp only [List.take_zero, List.sum_nil, Nat.zero_add]
        have hq : qr < w := hqr
        simp only [entryRow, hq, if_true, List.getD_cons_zero]
      | succ J' =>
        simp only [List.take_succ_cons, List.sum_cons]
        have hno : ¬(w + (ws'.take J').sum + qr < w) := by omega
        simp only [entryRow, hno, if_false]
        have harg : w + (ws'.take J').sum + qr - w = (ws'.take J').sum + qr := by
          omega
        rw [harg]
        exact ih bs J' i qr (by simpa using hJ) (by simpa using hlen) hqr

/-- The `J`-th column of a valid grid reads, at local column offset `qr`, the
grid entry at the global column coordinate. -/
theorem entryCol_colJ : ∀ (g : List (List Blk)) (rsh : List Nat) (csh : List Nat)
    (d : Dtype) (J t qr : Nat),
    validGrid g rsh csh d = true → J < csh.length → qr < csh.getD J 0 →
    entryCol (g.map (fun row => row.getD J default)) rsh t qr =
      entryGrid g rsh csh t ((csh.take J).sum + qr) := by
  intro g
  induction g with
  | nil =>
    intro rsh csh d J t qr hv hJ hqr
    simp [entryCol, entryGrid]
  | cons row rest ih =>
    intro rsh csh d J t qr hv hJ hqr
    cases rsh with
    | nil => simp [validGrid] at hv
    | cons h hs =>
      rw [validGrid_cons_iff] at hv
      obtain ⟨hvr, hvrest⟩ := hv
      simp only [List.map_cons]
      by_cases hth : t < h
      · simp only [entryCol, entryGrid, hth, if_true]
        exact (entryRow_locate csh row J t qr hJ (validRow_length_eq hvr) hqr).symm
      · simp only [entryCol, entryGrid, hth, if_false]
        exact ih hs csh d J (t - h) qr hvrest hJ hqr

/-- On a nonempty valid grid, the transposed block iterator's entry function
agrees with the grid's entry function at every in-range column coordinate. -/
theorem entryCols_gridT {g : List (List Blk)} {rsh csh : List Nat} {d : Dtype}
    (hv : validGrid g rsh csh d = true) (hg : g ≠ []) :
    ∀ t q, q < csh.sum →
    entryCols (gridT g) rsh csh t q = entryGrid g rsh csh t q := by
  intro t q hq
  obtain ⟨J, qr, hJ, hqr, hdec⟩ := locate_sum csh q hq
  cases g with
  | nil => exact absurd rfl hg
  | cons row0 rest =>
    cases rsh with
    | nil => simp [validGrid] at hv
    | cons h hs =>
      have hrow0 : validRow row0 h csh d = true := (validGrid_cons_iff.mp hv).1
      have hlen0 : row0.length = csh.length := validRow_length_eq hrow0
      have hT : gridT (row0 :: rest) = (List.range csh.length).map
          (fun j => (row0 :: rest).map (fun row => row.getD j default)) := by
        simp [gridT, hlen0]
      subst hdec
      rw [hT, entryCols_locate csh _ (h :: hs) J t qr hJ (by simp) hqr,
          getD_range_map hJ]
      exact entryCol_colJ (row0 :: rest) (h :: hs) csh d J t qr hv hJ hqr

/-- The slot widths of a valid block-row are exactly the width list. -/
theorem validRow_shape1_map : ∀ {row : List Blk} {h : Nat} {ws : List Nat}
    {d : Dtype}, validRow row h ws d = true → row.map Blk.shape1 = ws := by
  intro row
  induction row with
  | nil =>
    intro h ws d hv
    cases ws with
    | nil => rfl
    | cons w ws' => simp [validRow] at hv
  | cons b bs ih =>
    intro h ws d hv
    cases ws with
    | nil => simp [validRow] at hv
    | cons w ws' =>
      rw [validRow_cons_iff] at hv
      obtain ⟨_, _, h1, _, hrest⟩ := hv
      simp only [List.map_cons]
      rw [h1, ih hrest]

/-- The first-slot heights of a valid grid are exactly the height list. -/
theorem validGrid_head_shape0 : ∀ {g : List (List Blk)} {rsh csh : List Nat}
    {d : Dtype}, validGrid g rsh csh d = true → csh ≠ [] →
    g.map (fun r => (r.headD default).shape0) = rsh := by
  intro g
  induction g with
  | nil =>
    intro rsh csh d hv _
    cases rsh with
    | nil => rfl
    | cons r rs => simp [validGrid] at hv
  | cons row rest ih =>
    intro rsh csh d hv hcsh
    cases rsh with
    | nil => simp [validGrid] at hv
    | cons h hs =>
      rw [validGrid_cons_iff] at hv
      obtain ⟨hvr, hvrest⟩ := hv
      cases csh with
      | nil => exact absurd rfl hcsh
      | cons w ws =>
        cases row with
        | nil => simp [validRow] at hvr
        | cons b bs =>
          rw [validRow_cons_iff] at hvr
          obtain ⟨_, h0, _, _, _⟩ := hvr
          simp only [List.map_cons, List.headD_cons]
          rw [h0, ih hvrest (by simp)]

/-- Constructing from a nonempty valid grid with derived shapes
(`stored_block_shapes=None`) and validation skipped recovers exactly the
partitions the grid is valid against. -/
theorem init_none_of_valid {g : List (List Blk)} {rsh csh : List Nat} {d : Dtype}
    (hvg : validGrid g rsh csh d = true) (hg : g ≠ []) (hcsh : csh ≠ []) :
    init g none false =
      .ok (.blm g rsh csh g.length csh.length rsh.sum csh.sum d) ∧
    validBlk (.blm g rsh csh g.length csh.length rsh.sum csh.sum d) = true := by
  cases g with
  | nil => exact absurd rfl hg
  | cons row rest =>
    cases rsh with
    | nil => simp [validGrid] at hvg
    | cons h hs =>
      rw [validGrid_cons_iff] at hvg
      obtain ⟨hvr, hvrest⟩ := hvg
      cases csh with
      | nil => exact absurd rfl hcsh
      | cons w ws =>
        cases row with
        | nil => simp [validRow] at hvr
        | cons b00 brest =>
          rw [validRow_cons_iff] at hvr
          obtain ⟨hvb, hs0, hs1, hd, hvtail⟩ := hvr
          have hnd : b00.ndim = 2 := ndim_of_valid hvb
          have hlen : brest.length = ws.length := validRow_length_eq hvtail
          have hmap1 : (b00 :: brest).map Blk.shape1 = w :: ws :=
            validRow_shape1_map (validRow_cons_iff.mpr ⟨hvb, hs0, hs1, hd, hvtail⟩)
          have hmap0 : ((b00 :: brest) :: rest).map
              (fun r => (r.headD default).shape0) = h :: hs := by
            have hvgf : validGrid ((b00 :: brest) :: rest) (h :: hs) (w :: ws) d
                = true := by
              rw [validGrid_cons_iff]
              exact ⟨validRow_cons_iff.mpr ⟨hvb, hs0, hs1, hd, hvtail⟩, hvrest⟩
            exact validGrid_head_shape0 hvgf (by simp)
          have hmap0r : List.map (fun r => (r.head?.getD default).shape0) rest = hs := by
            have h2 := hmap0
            simp only [List.map_cons, List.headD_eq_head?, List.cons.injEq] at h2
            exact h2.2
          constructor
          · simp [init, hnd, hmap0, hmap1, hd, hlen, hs0, hmap0r]
          · rw [validBlk_blm_iff]
            refine ⟨?_, by simp, by simp, by simp, by simp, rfl, rfl⟩
            rw [validGrid_cons_iff]
            exact ⟨validRow_cons_iff.mpr ⟨hvb, hs0, hs1, hd, hvtail⟩, hvrest⟩

/-- Two rectangular buffers of the same dimensions with equal in-range
entries are equal. -/
theorem eqOfGetE {A B : List (List Int)} {w : Nat} (hl : A.length = B.length)
    (hA : rectM A w) (hB : rectM B w)
    (he : ∀ i j, i < A.length → j < w → getE A i j = getE B i j) : A = B := by
  apply List.ext_getElem hl
  intro i h1 h2
  apply eqOfGetD
  · rw [hA _ (List.getElem_mem _), hB _ (List.getElem_mem _)]
  · intro j hj
    have hj2 : j < w := by
      rw [hA _ (List.getElem_mem _)] at hj
      exact hj
    have hji := he i j h1 hj2
    unfold getE at hji
    rwa [List.getD_eq_getElem _ _ h1, List.getD_eq_getElem _ _ h2] at hji

/-- A valid grid against a nonempty height list is nonempty. -/
theorem validGrid_g_ne_nil {g : List (List Blk)} {rsh csh : List Nat} {d : Dtype}
    (hv : validGrid g rsh csh d = true) (hrsh : rsh ≠ []) : g ≠ [] := by
  cases g with
  | nil =>
    cases rsh with
    | nil => exact absurd rfl hrsh
    | cons r rs => simp [validGrid] at hv
  | cons row rest => simp

/-- A nonempty valid grid has a nonempty height list. -/
theorem validGrid_rsh_ne_nil {g : List (List Blk)} {rsh csh : List Nat} {d : Dtype}
    (hv : validGrid g rsh csh d = true) (hg : g ≠ []) : rsh ≠ [] := by
  cases g with
  | nil => exact absurd rfl hg
  | cons row rest =>
    cases rsh with
    | nil => simp [validGrid] at hv
    | cons h hs => simp

/-- C8 (amended): for block-compatible valid operands whose stored slots are
all dense leaves (and whose row groups are nonempty), `matmat` returns a
block tree whose flattening equals the conventional dense product
`flatten(B1) @ flatten(B2)` of the flattened operands, the (i, j) result
block being Python's sum over k of `B1[i,k] @ B2[k,j]`; on operands whose
slots are themselves block matrices the summation raises TypeError instead
(see the counterexample). -/
theorem C8_matmat_equals_dense_product
    (g1 : List (List Blk)) (rsh1 csh1 : List Nat) (nbR1 nbC1 s10 s11 : Nat)
    (d1 : Dtype)
    (g2 : List (List Blk)) (rsh2 csh2 : List Nat) (nbR2 nbC2 s20 s21 : Nat)
    (d2 : Dtype)
    (hv1 : validBlk (.blm g1 rsh1 csh1 nbR1 nbC1 s10 s11 d1) = true)
    (hv2 : validBlk (.blm g2 rsh2 csh2 nbR2 nbC2 s20 s21 d2) = true)
    (hlf1 : leafOnly (.blm g1 rsh1 csh1 nbR1 nbC1 s10 s11 d1) = true)
    (hlf2 : leafOnly (.blm g2 rsh2 csh2 nbR2 nbC2 s20 s21 d2) = true)
    (hcomp : csh1 = rsh2)
    (hpos1 : ∀ x ∈ rsh1, 0 < x) (hpos2 : ∀ x ∈ rsh2, 0 < x) :
    ∃ C F1 F2,
      matmatE (.blm g1 rsh1 csh1 nbR1 nbC1 s10 s11 d1)
        (.blm g2 rsh2 csh2 nbR2 nbC2 s20 s21 d2) = .ok (.bm C) ∧
      fullMatrixE (.blm g1 rsh1 csh1 nbR1 nbC1 s10 s11 d1) = .ok F1 ∧
      fullMatrixE (.blm g2 rsh2 csh2 nbR2 nbC2 s20 s21 d2) = .ok F2 ∧
      fullMatrixE C = .ok (denseMatmul F1 F2) := by
  subst hcomp
  obtain ⟨hvg1, hg1ne, hcsh1ne, hnbR1, hnbC1, hs10, hs11⟩ := validBlk_blm_iff.mp hv1
  obtain ⟨hvg2, hg2ne, hcsh2ne, hnbR2, hnbC2, hs20, hs21⟩ := validBlk_blm_iff.mp hv2
  have hlg1 : g1.all leafRow = true := hlf1
  have hlg2 : g2.all leafRow = true := hlf2
  obtain ⟨w1, ws', rfl⟩ : ∃ w1 ws', csh1 = w1 :: ws' := by
    cases csh1 with
    | nil => exact absurd rfl hcsh1ne
    | cons a b => exact ⟨a, b, rfl⟩
  have hvcols : validCols (gridT g2) (w1 :: ws') csh2 d2 = true :=
    gridT_validCols hvg2 hg2ne
  have hlcols : (gridT g2).all leafRow = true := gridT_leaf hlg2
  obtain ⟨gg, hgg, hvgg, hge⟩ :=
    matmatBB_spec g1 rsh1 (gridT g2) csh2 w1 ws' d1 d2 hvg1 hlg1 hvcols hlcols hpos1
  have hrsh1ne : rsh1 ≠ [] := validGrid_rsh_ne_nil hvg1 hg1ne
  have hggne : gg ≠ [] := validGrid_g_ne_nil hvgg hrsh1ne
  obtain ⟨hinit, hvC⟩ := init_none_of_valid hvgg hggne hcsh2ne
  obtain ⟨rowsC, hFC, hlC, hrC, heC⟩ := fullMatrix_of_valid hvC
  obtain ⟨rows1, hF1, hl1r, hr1, he1⟩ := fullMatrix_of_valid hv1
  obtain ⟨rows2, hF2, hl2r, hr2, he2⟩ := fullMatrix_of_valid hv2
  refine ⟨.blm gg rsh1 csh2 gg.length csh2.length rsh1.sum csh2.sum (promote d1 d2),
      ⟨d1, s10, s11, rows1⟩, ⟨d2, s20, s21, rows2⟩, ?_, hF1, hF2, ?_⟩
  · simp only [matmatE]
    rw [if_pos]
    · rw [hgg, exc_ok_bind, hinit, exc_ok_bind]
    · trivial
  · rw [hFC]
    have hw1pos : 0 < w1 := hpos2 w1 (by simp)
    have hsumpos : 0 < (w1 :: ws').sum := by
      have hsc : (w1 :: ws').sum = w1 + ws'.sum := by simp
      omega
    have hrows2ne : rows2 ≠ [] := by
      intro hnil
      rw [hnil] at hl2r
      simp only [List.length_nil] at hl2r
      omega
    have hh2 : (rows2.headD []).length = s21 := by
      cases rows2 with
      | nil => exact absurd rfl hrows2ne
      | cons r0 rr => exact hr2 r0 (by simp)
    have hrows : rowsC = npMatmulRows rows1 rows2 := by
      refine eqOfGetE ?_ hrC ?_ ?_
      · rw [npMatmulRows_length]
        omega
      · have hnpr := npMatmulRows_rect rows1 rows2
        rw [hh2, hs21] at hnpr
        exact hnpr
      · intro i j hi hj
        have hi2 : i < rsh1.sum := by omega
        rw [heC i j hi2 hj]
        have hC : entryBlk (.blm gg rsh1 csh2 gg.length csh2.length rsh1.sum
            csh2.sum (promote d1 d2)) i j = entryGrid gg rsh1 csh2 i j := rfl
        rw [hC, hge i j hi2 hj]
        rw [getE_npMatmulRows (by omega) (by omega)]
        rw [hl2r, hs20]
        apply rsum_congr
        intro t ht
        have h1e : (rows1.getD i []).getD t 0 =
            entryGrid g1 rsh1 (w1 :: ws') i t := by
          exact he1 i t (by omega) (by omega)
        have h2e : (rows2.getD t []).getD j 0 =
            entryGrid g2 (w1 :: ws') csh2 t j := by
          exact he2 t j (by omega) (by omega)
        rw [entryCols_gridT hvg2 hg2ne t j hj, h1e, h2e]
    rw [hrows]
    simp only [denseMatmul]
    rw [hs10, hs21]

/-- Binding an error propagates the error. -/
theorem exc_error_bind {α β : Type} (e : PyErr) (f : α → Except PyErr β) :
    ((Except.error e : Except PyErr α) >>= f) = .error e := rfl

/-- Python's `sum` raises TypeError as soon as a summand is a BlockMatrix,
whatever the running accumulator is (`int + BlockMatrix` and
`ndarray + BlockMatrix` both fail). -/
theorem pySum_sBM (c : Blk) (rest : List SlotVal) (st : PAcc) :
    pySum (.sBM c :: rest) st = .error .typeError := by
  cases st <;> rfl

/-- C8 counterexample: two valid block-compatible trees whose stored slots
are themselves block matrices.  Each product term `B1[i,k] @ B2[k,j]` is a
BlockMatrix, and Python's `sum` (which starts from the plain integer `0`)
raises TypeError on it, so `matmat` fails instead of satisfying the claimed
identity. -/
theorem C8_nested_matmat_typeerror :
    validBlk sampleNested = true ∧ validBlk sampleNested2 = true ∧
    matmatE sampleNested sampleNested2 = .error .typeError := by
  refine ⟨by decide, by decide, ?_⟩
  obtain ⟨gg, hgg, hvgg, _⟩ :=
    matmatBB_spec [[leafA, leafB], [leafC, leafD]] [2, 2]
      (gridT [[leafA, leafB], [leafC, leafA]]) [2, 2] 2 [2] .float .float
      (by decide) (by decide) (by decide) (by decide) (by decide)
  have hggne : gg ≠ [] := validGrid_g_ne_nil hvgg (by decide)
  obtain ⟨hinit, _⟩ := init_none_of_valid hvgg hggne (by decide)
  have hblk : ∃ c, blkMatmul sampleSquare sampleSquare2 = .ok (.sBM c) := by
    refine ⟨Blk.blm gg [2, 2] [2, 2] gg.length ([2, 2] : List Nat).length
      ([2, 2] : List Nat).sum ([2, 2] : List Nat).sum (promote .float .float), ?_⟩
    show blkMatmul
        (.blm [[leafA, leafB], [leafC, leafD]] [2, 2] [2, 2] 2 2 4 4 .float)
        (.blm [[leafA, leafB], [leafC, leafA]] [2, 2] [2, 2] 2 2 4 4 .float) = _
    simp only [blkMatmul]
    rw [if_pos]
    · rw [hgg, exc_ok_bind, hinit, exc_ok_bind]
    · trivial
  obtain ⟨c, hblk⟩ := hblk
  have hentries : mmEntries [sampleSquare] [sampleSquare2] = .ok [.sBM c] := by
    simp only [mmEntries]
    rw [hblk, exc_ok_bind, exc_ok_bind]
  have hline : mmLine [[sampleSquare2]] [sampleSquare] = .error .typeError := by
    simp only [mmLine]
    rw [hentries, exc_ok_bind, pySum_sBM, exc_error_bind]
  have hBB : matmatBB [[sampleSquare]] [[sampleSquare2]] = .error .typeError := by
    simp only [matmatBB]
    rw [hline, exc_error_bind]
  show matmatE (.blm [[sampleSquare]] [4] [4] 1 1 4 4 .float)
      (.blm [[sampleSquare2]] [4] [4] 1 1 4 4 .float) = .error .typeError
  simp only [matmatE]
  rw [if_pos]
  · rw [show gridT [[sampleSquare2]] = [[sampleSquare2]] from rfl, hBB,
        exc_error_bind]
  · trivial

/-- Witness for C8: the amended theorem applied to two concrete 2 × 2 grids
of dense leaves. -/
theorem C8_witness :
    validBlk sampleSquare = true ∧ validBlk sampleSquare2 = true ∧
    leafOnly sampleSquare = true ∧ leafOnly sampleSquare2 = true ∧
    (∃ C F1 F2, matmatE sampleSquare sampleSquare2 = .ok (.bm C) ∧
      fullMatrixE sampleSquare = .ok F1 ∧
      fullMatrixE sampleSquare2 = .ok F2 ∧
      fullMatrixE C = .ok (denseMatmul F1 F2)) :=
  ⟨by decide, by decide, by decide, by decide,
    C8_matmat_equals_dense_product
      [[leafA, leafB], [leafC, leafD]] [2, 2] [2, 2] 2 2 4 4 .float
      [[leafA, leafB], [leafC, leafA]] [2, 2] [2, 2] 2 2 4 4 .float
      (by decide) (by decide) (by decide) (by decide) rfl (by decide) (by decide)⟩

end Capytaine
